import Mathlib

/-!
# CXone-ValidTimezones: the table pipeline of `generate.go`

A shallow embedding of `generate.go`.  Go strings are modelled as lists of
Unicode code points (`Str`); for valid UTF-8 text the byte-level functions of
package `strings` used by the program (`Join`, `Contains`, `Split`,
`ReplaceAll`, `TrimSpace`) agree with the code-point-level functions below.
A slice is modelled by the list of its elements, a runtime index-out-of-range
panic by `none`, and a returned `error` by `Except.error`.
-/

namespace Generate

/-- A Go string, as the list of its code points. -/
abbrev Str := List Char

/-! ## Package `strings` -/

/-- Go's `unicode.IsSpace`: the Latin-1 spaces `\t \n \v \f \r`, space, U+0085,
U+00A0, and the code points with the `White_Space` property above Latin-1. -/
def isSpace (c : Char) : Bool :=
  let n := c.toNat
  (9 ≤ n && n ≤ 13) || n == 32 || n == 0x85 || n == 0xA0 || n == 0x1680 ||
    (0x2000 ≤ n && n ≤ 0x200A) || n == 0x2028 || n == 0x2029 || n == 0x202F ||
    n == 0x205F || n == 0x3000

/-- Go's `strings.TrimSpace`: the string without its leading and trailing white space. -/
def TrimSpace (s : Str) : Str :=
  ((s.dropWhile isSpace).reverse.dropWhile isSpace).reverse

/-- Go's `strings.Join`: the elements concatenated, with `sep` between neighbours. -/
def Join : List Str → Str → Str
  | [], _ => []
  | [e], _ => e
  | e :: es, sep => e ++ sep ++ Join es sep

/-- Go's `strings.Index`: the position of the first occurrence of `substr` in `s`,
`none` standing for Go's `-1`. -/
def Index : Str → Str → Option Nat
  | [], substr => if substr.isEmpty then some 0 else none
  | c :: cs, substr =>
    if substr.isPrefixOf (c :: cs) then some 0
    else (Index cs substr).map (· + 1)

/-- Go's `strings.Contains`: `Index(s, substr) >= 0`. -/
def Contains (s substr : Str) : Bool :=
  (Index s substr).isSome

/-- The scan of `strings.Split` for a non-empty separator: `cur` is the piece
being collected, and `skip` counts the characters of a matched separator that
are still to be stepped over. -/
def splitScan (sep : Str) : Nat → Str → Str → List Str
  | _, [], cur => [cur]
  | skip + 1, _ :: cs, cur => splitScan sep skip cs cur
  | 0, c :: cs, cur =>
    if sep.isPrefixOf (c :: cs) then cur :: splitScan sep (sep.length - 1) cs []
    else splitScan sep 0 cs (cur ++ [c])

/-- Go's `strings.Split`: the pieces of `s` between the leftmost non-overlapping
occurrences of `sep`; an empty `sep` explodes `s` into its characters. -/
def Split (s sep : Str) : List Str :=
  if sep.isEmpty then s.map (fun c => [c]) else splitScan sep 0 s []

/-- The scan of `strings.ReplaceAll` for a non-empty `old`: leftmost
non-overlapping occurrences of `old` are replaced by `new`; `skip` counts the
characters of a matched occurrence that are still to be stepped over. -/
def replaceScan (old new : Str) : Nat → Str → Str
  | _, [] => []
  | skip + 1, _ :: cs => replaceScan old new skip cs
  | 0, c :: cs =>
    if old.isPrefixOf (c :: cs) then new ++ replaceScan old new (old.length - 1) cs
    else c :: replaceScan old new 0 cs

/-- Go's `strings.ReplaceAll`: an empty `old` matches before every character and at
the end of the string. -/
def ReplaceAll (s old new : Str) : Str :=
  if old.isEmpty then new ++ s.flatMap (fun c => c :: new) else replaceScan old new 0 s

/-- The non-breaking space U+00A0. -/
def nbsp : Char := Char.ofNat 0xA0

/-! ## The tokenizer of `golang.org/x/net/html` -/

/-- The token types that `Tokenizer.Next` returns while the input lasts.
`html.ErrorToken` is not listed: it is what `Next` returns once the pending
tokens are used up, see `Tokenizer`. -/
inductive TokenType where
  | TextToken
  | StartTagToken
  | EndTagToken
  | SelfClosingTagToken
  | CommentToken
  | DoctypeToken
  deriving DecidableEq, Repr

/-- The fields of `html.Token` that the program reads: its type and its `Data`
(the tag name for a tag, the text for a text token). -/
structure Token where
  type : TokenType
  data : Str
  deriving DecidableEq, Repr

/-- What `Tokenizer.Err` reports at an `ErrorToken`: `io.EOF` at a clean end
of the input, or some other error, here identified by a number. -/
inductive TokErr where
  | EOF
  | other (code : Nat)
  deriving DecidableEq, Repr

/-- The state of an `html.Tokenizer`: the tokens that `Next` is still to
return, and the error it reports, from then on at every call, once they are
used up. -/
structure Tokenizer where
  pending : List Token
  err : TokErr
  deriving DecidableEq, Repr

/-- The tag names the program compares `token.Data` with. -/
def tableName : Str := "table".toList

/-- The name of a row tag. -/
def trName : Str := "tr".toList

/-! ## Fetcher -/

/-- The fields of the `http.Response` that `downloadHTML` reads: the status
code, and what `io.ReadAll(resp.Body)` gives, the bytes of the body or a read
error, here identified by a number. -/
structure Response where
  StatusCode : Int
  Body : Except Nat (List Nat)

/-- The errors that `downloadHTML` returns: the wrapped error of `http.Get`
(line 58), the unexpected status code (line 63), the wrapped error of
`io.ReadAll` (line 68). -/
inductive DownloadError where
  | get (cause : Nat)
  | status (code : Int)
  | read (cause : Nat)
  deriving DecidableEq, Repr

/-- The constant `http.StatusOK`. -/
def StatusOK : Int := 200

/-- The function `downloadHTML` (lines 55-72), given what `http.Get(url)`
returned: a response or a transport error. -/
def downloadHTML (got : Except Nat Response) : Except DownloadError (List Nat) :=
  match got with
  | Except.error e => Except.error (DownloadError.get e)
  | Except.ok resp =>
    if resp.StatusCode ≠ StatusOK then Except.error (DownloadError.status resp.StatusCode)
    else
      match resp.Body with
      | Except.error e => Except.error (DownloadError.read e)
      | Except.ok body => Except.ok body

/-! ## Table Extractor -/

/-- The loop of `extractRow` (lines 142-160) over the pending tokens, `row`
being the entries collected so far.  The result is the row together with the
tokens left in the tokenizer. -/
def extractRowLoop (err : TokErr) : List Token → List Str → Except Nat (List Str × List Token)
  | [], row =>
    match err with
    | TokErr.EOF => Except.ok (row, [])
    | TokErr.other e => Except.error e
  | token :: rest, row =>
    let row := if token.type = TokenType.TextToken then row ++ [TrimSpace token.data] else row
    if token.type = TokenType.EndTagToken ∧ token.data = trName then Except.ok (row, rest)
    else extractRowLoop err rest row

/-- The function `extractRow` (lines 139-163). -/
def extractRow (tokenizer : Tokenizer) : Except Nat (List Str × Tokenizer) :=
  match extractRowLoop tokenizer.err tokenizer.pending [] with
  | Except.ok (row, rest) => Except.ok (row, { tokenizer with pending := rest })
  | Except.error e => Except.error e

/-- The tokens left by the row loop are among the tokens it was given; the
table loop terminates by this. -/
theorem extractRowLoop_length (err : TokErr) (toks : List Token) (row : List Str)
    (out : List Str) (rest : List Token)
    (h : extractRowLoop err toks row = Except.ok (out, rest)) : rest.length ≤ toks.length := by
  induction toks generalizing row with
  | nil =>
    cases err with
    | EOF => simp [extractRowLoop] at h; simp [h.2.symm]
    | other e => simp [extractRowLoop] at h
  | cons token toks ih =>
    simp only [extractRowLoop] at h
    split at h
    · simp only [Except.ok.injEq, Prod.mk.injEq] at h
      rw [← h.2]; simp
    · exact Nat.le_succ_of_le (ih _ h)

/-- The loop of `extractTable` (lines 105-128) over the pending tokens,
`tableRows` being the rows collected so far; at the end the rows are joined
with the delimiter (lines 131-134). -/
def extractTableLoop (delimiter : Str) (err : TokErr) :
    List Token → List (List Str) → Except Nat (List Str × List Token)
  | [], tableRows =>
    match err with
    | TokErr.EOF => Except.ok (tableRows.map (fun row => Join row delimiter), [])
    | TokErr.other e => Except.error e
  | token :: rest, tableRows =>
    if token.type = TokenType.StartTagToken ∧ token.data = trName then
      match h : extractRowLoop err rest [] with
      | Except.error e => Except.error e
      | Except.ok (row, rest') =>
        if token.type = TokenType.EndTagToken ∧ token.data = tableName then
          Except.ok ((tableRows ++ [row]).map (fun row => Join row delimiter), rest')
        else extractTableLoop delimiter err rest' (tableRows ++ [row])
    else if token.type = TokenType.EndTagToken ∧ token.data = tableName then
      Except.ok (tableRows.map (fun row => Join row delimiter), rest)
    else extractTableLoop delimiter err rest tableRows
termination_by toks => toks.length
decreasing_by
  · have := extractRowLoop_length err rest [] row rest' h
    simp only [List.length_cons]
    omega
  · simp

/-- The function `extractTable` (lines 102-137). -/
def extractTable (delimiter : Str) (tokenizer : Tokenizer) : Except Nat (List Str × Tokenizer) :=
  match extractTableLoop delimiter tokenizer.err tokenizer.pending [] with
  | Except.ok (table, rest) => Except.ok (table, { tokenizer with pending := rest })
  | Except.error e => Except.error e

/-- The table loop at the end of the pending tokens. -/
theorem extractTableLoop_nil (delimiter : Str) (err : TokErr) (tableRows : List (List Str)) :
    extractTableLoop delimiter err [] tableRows =
      match err with
      | TokErr.EOF => Except.ok (tableRows.map (fun row => Join row delimiter), [])
      | TokErr.other e => Except.error e := by
  cases err <;> rw [extractTableLoop]

/-- One iteration of the table loop. -/
theorem extractTableLoop_cons (delimiter : Str) (err : TokErr) (token : Token)
    (rest : List Token) (tableRows : List (List Str)) :
    extractTableLoop delimiter err (token :: rest) tableRows =
      if token.type = TokenType.StartTagToken ∧ token.data = trName then
        match extractRowLoop err rest [] with
        | Except.error e => Except.error e
        | Except.ok (row, rest') =>
          if token.type = TokenType.EndTagToken ∧ token.data = tableName then
            Except.ok ((tableRows ++ [row]).map (fun row => Join row delimiter), rest')
          else extractTableLoop delimiter err rest' (tableRows ++ [row])
      else if token.type = TokenType.EndTagToken ∧ token.data = tableName then
        Except.ok (tableRows.map (fun row => Join row delimiter), rest)
      else extractTableLoop delimiter err rest tableRows := by
  conv => lhs; rw [extractTableLoop]
  split
  · split <;> rename_i hrow <;> simp only [hrow]
  · rfl

/-- The tokens left by the table loop are among the tokens it was given; the
outer loop terminates by this. -/
theorem extractTableLoop_length (delimiter : Str) (err : TokErr) (toks : List Token)
    (rows : List (List Str)) (out : List Str) (rest : List Token)
    (h : extractTableLoop delimiter err toks rows = Except.ok (out, rest)) :
    rest.length ≤ toks.length := by
  generalize hn : toks.length = n
  induction n using Nat.strong_induction_on generalizing toks rows with
  | _ n ih =>
    subst hn
    cases toks with
    | nil =>
      cases err with
      | EOF => rw [extractTableLoop_nil] at h; simp at h; simp [h.2.symm]
      | other e => rw [extractTableLoop_nil] at h; simp at h
    | cons token toks =>
      rw [extractTableLoop_cons] at h
      split at h
      · split at h
        · simp at h
        · rename_i row rest' hrow
          have hlen := extractRowLoop_length err toks [] row rest' hrow
          split at h
          · simp only [Except.ok.injEq, Prod.mk.injEq] at h
            rw [← h.2]; simp; omega
          · have := ih rest'.length (by simp; omega) rest' _ h rfl
            simp; omega
      · split at h
        · simp only [Except.ok.injEq, Prod.mk.injEq] at h
          rw [← h.2]; simp
        · have := ih toks.length (by simp) toks _ h rfl
          simp; omega

/-- The loop of `extractTables` (lines 79-97) over the pending tokens,
`tables` being the tables collected so far. -/
def extractTablesLoop (delimiter : Str) (err : TokErr) :
    List Token → List (List Str) → Except Nat (List (List Str))
  | [], tables =>
    match err with
    | TokErr.EOF => Except.ok tables
    | TokErr.other e => Except.error e
  | token :: rest, tables =>
    if token.type = TokenType.StartTagToken ∧ token.data = tableName then
      match h : extractTableLoop delimiter err rest [] with
      | Except.error e => Except.error e
      | Except.ok (table, rest') => extractTablesLoop delimiter err rest' (tables ++ [table])
    else extractTablesLoop delimiter err rest tables
termination_by toks => toks.length
decreasing_by
  · have := extractTableLoop_length delimiter err rest [] table rest' h
    simp only [List.length_cons]
    omega
  · simp

/-- The function `extractTables` (lines 74-100), on the tokenizer made from
the page body. -/
def extractTables (delimiter : Str) (tokenizer : Tokenizer) : Except Nat (List (List Str)) :=
  extractTablesLoop delimiter tokenizer.err tokenizer.pending []

/-! ## Keyword Filter -/

/-- The inner loop of `filterTablesByKeyword` (lines 169-174) over the rows of
`table` still to be looked at: at the first row that contains the keyword the
table is appended and the loop is left. -/
def filterRowsLoop (table : List Str) (keyword : Str) :
    List Str → List (List Str) → List (List Str)
  | [], filteredTables => filteredTables
  | row :: rest, filteredTables =>
    if Contains row keyword then filteredTables ++ [table]
    else filterRowsLoop table keyword rest filteredTables

/-- The outer loop of `filterTablesByKeyword` (lines 168-175). -/
def filterTablesLoop (keyword : Str) : List (List Str) → List (List Str) → List (List Str)
  | [], filteredTables => filteredTables
  | table :: rest, filteredTables =>
    filterTablesLoop keyword rest (filterRowsLoop table keyword table filteredTables)

/-- The function `filterTablesByKeyword` (lines 165-178). -/
def filterTablesByKeyword (tables : List (List Str)) (keyword : Str) : List (List Str) :=
  filterTablesLoop keyword tables []

/-! ## Cell Normalizer -/

/-- The function `splitRow` (lines 200-208). -/
def splitRow (row : Str) (delimiter : Str) : List Str :=
  let doubleDelimiter := delimiter ++ delimiter
  let cells := Split row doubleDelimiter
  cells.map TrimSpace

/-- What lines 212-216 of `cleanCells` leave in `cells[i]`. -/
def cleanCell (delimiter : Str) (cell : Str) : Str :=
  let cell := ReplaceAll cell delimiter " ".toList
  let cell := ReplaceAll cell [nbsp] " ".toList
  let cell := ReplaceAll cell "  ".toList " ".toList
  TrimSpace cell

/-- The range loop of `cleanCells` (lines 211-222): `todo` iterations are left
(the loop runs once for every index of the slice it started with), `i` is the
loop index and `cells` the slice as it is now.  Reading `cells[i]` beyond the
length of the slice is a runtime panic, `none`.  A cell that is empty after
cleaning is cut out of the slice (line 219); the `i--` of line 220 changes
only the body's copy of the index, the next iteration takes the next index. -/
def cleanCellsLoop (delimiter : Str) : Nat → Nat → List Str → Option (List Str)
  | 0, _, cells => some cells
  | todo + 1, i, cells =>
    match cells.get? i with
    | none => none
    | some cell =>
      let cells := cells.set i (cleanCell delimiter cell)
      if cleanCell delimiter cell = [] then
        cleanCellsLoop delimiter todo (i + 1) (cells.take i ++ cells.drop (i + 1))
      else cleanCellsLoop delimiter todo (i + 1) cells

/-- The function `cleanCells` (lines 210-224). -/
def cleanCells (cells : List Str) (delimiter : Str) : Option (List Str) :=
  cleanCellsLoop delimiter cells.length 0 cells

/-- The filter/rebuild pass that the specification describes for `cleanCells`:
every cell is cleaned and exactly the cells that are not empty afterwards are
kept, in order, in a new sequence. -/
def cleanCellsRebuild (cells : List Str) (delimiter : Str) : List Str :=
  (cells.map (cleanCell delimiter)).filter (fun cell => cell ≠ [])

/-- The inner loop of `extractCellsFromTables` (lines 229-233). -/
def extractCellsRowsLoop (delimiter : Str) :
    List Str → List (List Str) → Option (List (List Str))
  | [], allCells => some allCells
  | row :: rest, allCells =>
    match cleanCells (splitRow row delimiter) delimiter with
    | none => none
    | some cells => extractCellsRowsLoop delimiter rest (allCells ++ [cells])

/-- The outer loop of `extractCellsFromTables` (lines 228-234). -/
def extractCellsTablesLoop (delimiter : Str) :
    List (List Str) → List (List Str) → Option (List (List Str))
  | [], allCells => some allCells
  | table :: rest, allCells =>
    match extractCellsRowsLoop delimiter table allCells with
    | none => none
    | some allCells => extractCellsTablesLoop delimiter rest allCells

/-- The function `extractCellsFromTables` (lines 226-236); `none` is the
panic of a `cleanCells` call. -/
def extractCellsFromTables (tables : List (List Str)) (delimiter : Str) :
    Option (List (List Str)) :=
  extractCellsTablesLoop delimiter tables []

/-! ## Writer -/

/-- How a call of `writeTablesToCSV` goes, up to the point where the records
are handed to the `csv` writer. -/
inductive WriteOutcome where
  /-- The call of `os.Create` failed and its error is returned (line 183). -/
  | createError
  /-- A runtime index-out-of-range panic. -/
  | panic
  /-- The call `writer.WriteAll` is made with these records (line 197). -/
  | writeAll (records : List (List Str))
  deriving DecidableEq, Repr

/-- The label appended to the header record (line 193). -/
def additionalNotes : Str := "Additional Notes".toList

/-- The record construction of `writeTablesToCSV` (lines 191-195): the cells
of all rows, with the label appended to element 0; reading element 0 of an
empty list is a runtime panic, `none`. -/
def csvRecords (tables : List (List Str)) (delimiter : Str) : Option (List (List Str)) :=
  match extractCellsFromTables tables delimiter with
  | none => none
  | some allCells =>
    match allCells with
    | [] => none
    | header :: others => some ((header ++ [additionalNotes]) :: others)

/-- The function `writeTablesToCSV` (lines 180-198); `created` tells whether
`os.Create` succeeded.  Taking the first character of an empty delimiter
(line 188) is a runtime panic. -/
def writeTablesToCSV (created : Bool) (tables : List (List Str)) (delimiter : Str) :
    WriteOutcome :=
  if !created then WriteOutcome.createError
  else
    match delimiter.get? 0 with
    | none => WriteOutcome.panic
    | some _ =>
      match csvRecords tables delimiter with
      | none => WriteOutcome.panic
      | some records => WriteOutcome.writeAll records

/-! ## Secondary Listing Generator -/

/-- The output of `fmt.Fprintf(outFile, "VALID_TIMEZONES[%d] = \"%s\"\n", index, timezone)`
(line 270). -/
def validTimezonesLine (index : Nat) (timezone : Str) : Str :=
  "VALID_TIMEZONES[".toList ++ Nat.toDigits 10 index ++ "] = \"".toList ++ timezone ++
    "\"\n".toList

/-- The loop of `cx1_sample_array` (lines 265-271) over the records still to
be visited, `out` being the text written so far; `record[0]` of a record
without fields is a runtime panic, `none`. -/
def sampleArrayLoop : Nat → List (List Str) → Str → Option Str
  | _, [], out => some out
  | index, record :: rest, out =>
    match record.get? 0 with
    | none => none
    | some timezone =>
      if index = 0 then sampleArrayLoop (index + 1) rest out
      else sampleArrayLoop (index + 1) rest (out ++ validTimezonesLine index timezone)

/-- The text that `cx1_sample_array` writes to the listing file (lines
263-271), given the records that `reader.ReadAll` returned. -/
def cx1_sample_array (records : List (List Str)) (webpage : Str) : Option Str :=
  sampleArrayLoop 0 records ("// ".toList ++ webpage ++ "\n".toList)

/-! ## Well-formed table markup -/

/-- A start tag with the given name. -/
def isStartTag (name : Str) (t : Token) : Bool :=
  t.type = TokenType.StartTagToken && t.data = name

/-- An end tag with the given name. -/
def isEndTag (name : Str) (t : Token) : Bool :=
  t.type = TokenType.EndTagToken && t.data = name

/-- A `table` or `tr` tag, start or end. -/
def isTableOrTrTag (t : Token) : Bool :=
  isStartTag tableName t || isEndTag tableName t || isStartTag trName t || isEndTag trName t

/-- The start tag token with the given name. -/
def startTag (name : Str) : Token := ⟨TokenType.StartTagToken, name⟩

/-- The end tag token with the given name. -/
def endTag (name : Str) : Token := ⟨TokenType.EndTagToken, name⟩

/-- A row element of the markup: the tokens of the table that come before the
row's start tag (after the previous row), and the tokens between the row's
start tag and its end tag. -/
structure RowElem where
  before : List Token
  inside : List Token

/-- A table element of the markup: the tokens of the document before the
table's start tag (after the previous table), the rows, and the tokens between
the last row and the table's end tag. -/
structure TableElem where
  before : List Token
  rows : List RowElem
  after : List Token

/-- The tokens of a row element with what precedes it in the table. -/
def RowElem.tokens (r : RowElem) : List Token :=
  r.before ++ startTag trName :: (r.inside ++ [endTag trName])

/-- The tokens of a table between its start tag and its end tag. -/
def TableElem.content (t : TableElem) : List Token :=
  t.rows.flatMap RowElem.tokens ++ t.after

/-- The tokens of a table element with what precedes it in the document. -/
def TableElem.tokens (t : TableElem) : List Token :=
  t.before ++ startTag tableName :: (t.content ++ [endTag tableName])

/-- The tokens of a document made of table elements and a trailer. -/
def documentTokens (tables : List TableElem) (trailer : List Token) : List Token :=
  tables.flatMap TableElem.tokens ++ trailer

/-- The entries of a row: the trimmed contents of its text tokens, in order. -/
def rowEntries (inside : List Token) : List Str :=
  (inside.filter (fun t => t.type = TokenType.TextToken)).map (fun t => TrimSpace t.data)

/-- The rows of a table element are closed at their own end tag, and no row
start or table end lies between them. -/
def TableElem.Scannable (t : TableElem) : Prop :=
  (∀ r ∈ t.rows, (∀ x ∈ r.before, isStartTag trName x = false ∧ isEndTag tableName x = false) ∧
      ∀ x ∈ r.inside, isEndTag trName x = false) ∧
    ∀ x ∈ t.after, isStartTag trName x = false ∧ isEndTag tableName x = false

/-- A non-nested table element: no `table` or `tr` tag inside a row or between
the rows, and no `table` start tag in the tokens that precede the table. -/
def TableElem.WellFormed (t : TableElem) : Prop :=
  (∀ x ∈ t.before, isStartTag tableName x = false) ∧
    (∀ r ∈ t.rows, (∀ x ∈ r.before, isTableOrTrTag x = false) ∧
      ∀ x ∈ r.inside, isTableOrTrTag x = false) ∧
    ∀ x ∈ t.after, isTableOrTrTag x = false

instance (t : TableElem) : Decidable t.Scannable := by
  unfold TableElem.Scannable; infer_instance

instance (t : TableElem) : Decidable t.WellFormed := by
  unfold TableElem.WellFormed; infer_instance

/-! ## Table Extractor: lemmas -/

/-- The outer loop at the end of the pending tokens. -/
theorem extractTablesLoop_nil (delimiter : Str) (err : TokErr) (tables : List (List Str)) :
    extractTablesLoop delimiter err [] tables =
      match err with
      | TokErr.EOF => Except.ok tables
      | TokErr.other e => Except.error e := by
  cases err <;> rw [extractTablesLoop]

/-- One iteration of the outer loop. -/
theorem extractTablesLoop_cons (delimiter : Str) (err : TokErr) (token : Token)
    (rest : List Token) (tables : List (List Str)) :
    extractTablesLoop delimiter err (token :: rest) tables =
      if token.type = TokenType.StartTagToken ∧ token.data = tableName then
        match extractTableLoop delimiter err rest [] with
        | Except.error e => Except.error e
        | Except.ok (table, rest') => extractTablesLoop delimiter err rest' (tables ++ [table])
      else extractTablesLoop delimiter err rest tables := by
  conv => lhs; rw [extractTablesLoop]
  split
  · split <;> rename_i htab <;> simp only [htab]
  · rfl

/-- The row loop passes over tokens that are not a row end tag, collecting the
text entries, and stops right after the first row end tag. -/
theorem extractRowLoop_inside (err : TokErr) (inside rest : List Token) (row : List Str)
    (h : ∀ x ∈ inside, isEndTag trName x = false) :
    extractRowLoop err (inside ++ endTag trName :: rest) row =
      Except.ok (row ++ rowEntries inside, rest) := by
  induction inside generalizing row with
  | nil => simp [extractRowLoop, endTag, rowEntries]
  | cons x xs ih =>
    have hx : ¬ (x.type = TokenType.EndTagToken ∧ x.data = trName) := by
      have := h x (List.mem_cons_self _ _)
      simpa [isEndTag] using this
    have hxs : ∀ y ∈ xs, isEndTag trName y = false := fun y hy => h y (List.mem_cons_of_mem _ hy)
    rw [List.cons_append, extractRowLoop]
    simp only [hx, if_false]
    rw [ih _ hxs]
    by_cases ht : x.type = TokenType.TextToken
    · simp [rowEntries, ht, List.filter_cons]
    · simp [rowEntries, ht, List.filter_cons]

/-- The table loop passes over tokens that are neither a row start tag nor a
table end tag. -/
theorem extractTableLoop_skip (delimiter : Str) (err : TokErr) (filler rest : List Token)
    (rows : List (List Str))
    (h : ∀ x ∈ filler, isStartTag trName x = false ∧ isEndTag tableName x = false) :
    extractTableLoop delimiter err (filler ++ rest) rows =
      extractTableLoop delimiter err rest rows := by
  induction filler with
  | nil => rfl
  | cons x xs ih =>
    have hx := h x (List.mem_cons_self _ _)
    have h1 : ¬ (x.type = TokenType.StartTagToken ∧ x.data = trName) := by
      simpa [isStartTag] using hx.1
    have h2 : ¬ (x.type = TokenType.EndTagToken ∧ x.data = tableName) := by
      simpa [isEndTag] using hx.2
    rw [List.cons_append, extractTableLoop_cons, if_neg h1, if_neg h2]
    exact ih (fun y hy => h y (List.mem_cons_of_mem _ hy))

/-- The table loop over one row element appends the entries of the row. -/
theorem extractTableLoop_row (delimiter : Str) (err : TokErr) (r : RowElem)
    (rest : List Token) (rows : List (List Str))
    (hb : ∀ x ∈ r.before, isStartTag trName x = false ∧ isEndTag tableName x = false)
    (hi : ∀ x ∈ r.inside, isEndTag trName x = false) :
    extractTableLoop delimiter err (r.tokens ++ rest) rows =
      extractTableLoop delimiter err rest (rows ++ [rowEntries r.inside]) := by
  unfold RowElem.tokens
  rw [List.append_assoc, extractTableLoop_skip delimiter err _ _ _ hb, List.cons_append,
    extractTableLoop_cons, List.append_assoc, List.singleton_append,
    extractRowLoop_inside err _ _ _ hi]
  simp [startTag]

/-- The table loop over the rows of a table element. -/
theorem extractTableLoop_rows (delimiter : Str) (err : TokErr) (rs : List RowElem)
    (rest : List Token) (rows : List (List Str))
    (h : ∀ r ∈ rs, (∀ x ∈ r.before, isStartTag trName x = false ∧ isEndTag tableName x = false) ∧
      ∀ x ∈ r.inside, isEndTag trName x = false) :
    extractTableLoop delimiter err (rs.flatMap RowElem.tokens ++ rest) rows =
      extractTableLoop delimiter err rest (rows ++ rs.map (fun r => rowEntries r.inside)) := by
  induction rs generalizing rows with
  | nil => simp
  | cons r rs ih =>
    have hr := h r (List.mem_cons_self _ _)
    rw [List.flatMap_cons, List.append_assoc, extractTableLoop_row delimiter err r _ _ hr.1 hr.2,
      ih _ (fun r' hr' => h r' (List.mem_cons_of_mem _ hr'))]
    simp

/-- The table loop over the content of a table element, up to and including
the table end tag. -/
theorem extractTableLoop_content (delimiter : Str) (err : TokErr) (t : TableElem)
    (rest : List Token) (h : t.Scannable) :
    extractTableLoop delimiter err (t.content ++ endTag tableName :: rest) [] =
      Except.ok (t.rows.map (fun r => Join (rowEntries r.inside) delimiter), rest) := by
  unfold TableElem.content
  rw [List.append_assoc, extractTableLoop_rows delimiter err _ _ _ h.1,
    extractTableLoop_skip delimiter err _ _ _ h.2, extractTableLoop_cons]
  simp [endTag, trName, tableName, List.map_map, Function.comp_def]

/-- A well-formed table element is scannable. -/
theorem TableElem.WellFormed.scannable {t : TableElem} (h : t.WellFormed) : t.Scannable := by
  have key : ∀ x : Token, isTableOrTrTag x = false →
      isStartTag trName x = false ∧ isEndTag tableName x = false ∧ isEndTag trName x = false := by
    intro x hx
    simp only [isTableOrTrTag, Bool.or_eq_false_iff] at hx
    exact ⟨hx.1.2, hx.1.1.2, hx.2⟩
  refine ⟨fun r hr => ⟨fun x hx => ?_, fun x hx => ?_⟩, fun x hx => ?_⟩
  · exact ⟨(key x ((h.2.1 r hr).1 x hx)).1, (key x ((h.2.1 r hr).1 x hx)).2.1⟩
  · exact (key x ((h.2.1 r hr).2 x hx)).2.2
  · exact ⟨(key x (h.2.2 x hx)).1, (key x (h.2.2 x hx)).2.1⟩

/-- The outer loop passes over tokens that are not a table start tag. -/
theorem extractTablesLoop_skip (delimiter : Str) (err : TokErr) (filler rest : List Token)
    (tables : List (List Str)) (h : ∀ x ∈ filler, isStartTag tableName x = false) :
    extractTablesLoop delimiter err (filler ++ rest) tables =
      extractTablesLoop delimiter err rest tables := by
  induction filler with
  | nil => rfl
  | cons x xs ih =>
    have h1 : ¬ (x.type = TokenType.StartTagToken ∧ x.data = tableName) := by
      have := h x (List.mem_cons_self _ _)
      simpa [isStartTag] using this
    rw [List.cons_append, extractTablesLoop_cons, if_neg h1]
    exact ih (fun y hy => h y (List.mem_cons_of_mem _ hy))

/-- The outer loop over a list of table elements. -/
theorem extractTablesLoop_elems (delimiter : Str) (err : TokErr) (ts : List TableElem)
    (rest : List Token) (tables : List (List Str))
    (h : ∀ t ∈ ts, (∀ x ∈ t.before, isStartTag tableName x = false) ∧ t.Scannable) :
    extractTablesLoop delimiter err (ts.flatMap TableElem.tokens ++ rest) tables =
      extractTablesLoop delimiter err rest
        (tables ++ ts.map (fun t => t.rows.map (fun r => Join (rowEntries r.inside) delimiter))) := by
  induction ts generalizing tables with
  | nil => simp
  | cons t ts ih =>
    have ht := h t (List.mem_cons_self _ _)
    have hstart : (startTag tableName).type = TokenType.StartTagToken ∧
        (startTag tableName).data = tableName := ⟨rfl, rfl⟩
    rw [List.flatMap_cons, List.append_assoc]
    conv => lhs; arg 3; arg 1; unfold TableElem.tokens
    rw [List.append_assoc, extractTablesLoop_skip delimiter err _ _ _ ht.1, List.cons_append,
      extractTablesLoop_cons, List.append_assoc, List.singleton_append,
      extractTableLoop_content delimiter err t _ ht.2, if_pos hstart]
    simp only
    rw [ih _ (fun t' ht' => h t' (List.mem_cons_of_mem _ ht'))]
    simp

/-- The result of `extractTables` on a document of scannable table elements
that ends with a clean end-of-stream. -/
theorem extractTables_document (delimiter : Str) (ts : List TableElem) (trailer : List Token)
    (h : ∀ t ∈ ts, (∀ x ∈ t.before, isStartTag tableName x = false) ∧ t.Scannable)
    (htr : ∀ x ∈ trailer, isStartTag tableName x = false) :
    extractTables delimiter ⟨documentTokens ts trailer, TokErr.EOF⟩ =
      Except.ok (ts.map (fun t => t.rows.map (fun r => Join (rowEntries r.inside) delimiter))) := by
  unfold extractTables documentTokens
  simp only
  rw [extractTablesLoop_elems delimiter _ ts trailer [] h]
  have := extractTablesLoop_skip delimiter TokErr.EOF trailer [] ([] ++
    ts.map (fun t => t.rows.map (fun r => Join (rowEntries r.inside) delimiter))) htr
  rw [List.append_nil] at this
  rw [this, extractTablesLoop_nil]
  simp

/-- An error that the row loop returns is the tokenizer's error. -/
theorem extractRowLoop_error (e e' : Nat) (toks : List Token) (row : List Str)
    (h : extractRowLoop (TokErr.other e) toks row = Except.error e') : e' = e := by
  induction toks generalizing row with
  | nil => simp [extractRowLoop] at h; exact h.symm
  | cons x xs ih =>
    rw [extractRowLoop] at h
    split at h
    · simp at h
    · exact ih _ h

/-- An error that the table loop returns is the tokenizer's error. -/
theorem extractTableLoop_error (delimiter : Str) (e e' : Nat) (toks : List Token)
    (rows : List (List Str))
    (h : extractTableLoop delimiter (TokErr.other e) toks rows = Except.error e') : e' = e := by
  generalize hn : toks.length = n
  induction n using Nat.strong_induction_on generalizing toks rows with
  | _ n ih =>
    subst hn
    cases toks with
    | nil => rw [extractTableLoop_nil] at h; simp at h; exact h.symm
    | cons x xs =>
      rw [extractTableLoop_cons] at h
      split at h
      · split at h
        · rename_i e'' hrow
          simp only [Except.error.injEq] at h
          subst h
          exact extractRowLoop_error e _ xs [] hrow
        · rename_i row rest' hrow
          have hlen := extractRowLoop_length _ xs [] row rest' hrow
          split at h
          · simp at h
          · exact ih rest'.length (by simp; omega) rest' _ h rfl
      · split at h
        · simp at h
        · exact ih xs.length (by simp) xs _ h rfl

/-- With a tokenizer error other than end-of-stream the outer loop fails with
that error, whatever it has collected. -/
theorem extractTablesLoop_error (delimiter : Str) (e : Nat) (toks : List Token)
    (tables : List (List Str)) :
    extractTablesLoop delimiter (TokErr.other e) toks tables = Except.error e := by
  generalize hn : toks.length = n
  induction n using Nat.strong_induction_on generalizing toks tables with
  | _ n ih =>
    subst hn
    cases toks with
    | nil => rw [extractTablesLoop_nil]
    | cons x xs =>
      rw [extractTablesLoop_cons]
      split
      · split
        · rename_i e' htab
          rw [extractTableLoop_error delimiter e e' xs [] htab]
        · rename_i table rest' htab
          have hlen := extractTableLoop_length delimiter _ xs [] table rest' htab
          exact ih rest'.length (by simp; omega) rest' _ rfl
      · exact ih xs.length (by simp) xs _ rfl

/-- White space only trims to the empty string. -/
theorem TrimSpace_eq_nil_of_all_space (s : Str) (h : ∀ c ∈ s, isSpace c = true) :
    TrimSpace s = [] := by
  have : s.dropWhile isSpace = [] := by
    rw [List.dropWhile_eq_nil_iff]; exact h
  simp [TrimSpace, this]

/-! ## Table Extractor: the claims -/

/-- C1: on a token stream that ends with a clean end-of-stream and is made of
non-nested table elements (no `table` or `tr` tag inside a row or between the
rows of a table), with tokens other than a `table` start tag between and after
the tables, `extractTables` succeeds and returns one table for each table
element, in document order, the i-th with as many flattened rows as the i-th
table element has rows. -/
theorem extractTables_wellFormed (delimiter : Str) (ts : List TableElem)
    (trailer : List Token) (h : ∀ t ∈ ts, t.WellFormed)
    (htr : ∀ x ∈ trailer, isStartTag tableName x = false) :
    ∃ tables, extractTables delimiter ⟨documentTokens ts trailer, TokErr.EOF⟩ = Except.ok tables ∧
      tables.length = ts.length ∧
      tables.map List.length = ts.map (fun t => t.rows.length) := by
  refine ⟨_, extractTables_document delimiter ts trailer
    (fun t ht => ⟨(h t ht).1, (h t ht).scannable⟩) htr, ?_, ?_⟩
  · simp
  · simp [List.map_map, Function.comp_def]

/-- Witness of C1: two tables, of two rows and of no row, between other tokens. -/
theorem extractTables_wellFormed_witness :
    (∀ t ∈ [(⟨[⟨TokenType.TextToken, ['x']⟩],
          [⟨[], [⟨TokenType.TextToken, ['a']⟩]⟩,
            ⟨[⟨TokenType.TextToken, [' ']⟩], [⟨TokenType.StartTagToken, ['t', 'd']⟩]⟩],
          []⟩ : TableElem),
        ⟨[⟨TokenType.EndTagToken, ['p']⟩], [], [⟨TokenType.CommentToken, ['c']⟩]⟩],
        t.WellFormed) ∧
      (∀ x ∈ [(⟨TokenType.TextToken, ['y']⟩ : Token)], isStartTag tableName x = false) ∧
      ∃ tables, extractTables ['\t'] ⟨documentTokens
          [⟨[⟨TokenType.TextToken, ['x']⟩],
            [⟨[], [⟨TokenType.TextToken, ['a']⟩]⟩,
              ⟨[⟨TokenType.TextToken, [' ']⟩], [⟨TokenType.StartTagToken, ['t', 'd']⟩]⟩],
            []⟩,
          ⟨[⟨TokenType.EndTagToken, ['p']⟩], [], [⟨TokenType.CommentToken, ['c']⟩]⟩]
          [⟨TokenType.TextToken, ['y']⟩], TokErr.EOF⟩ = Except.ok tables ∧
        tables.length = 2 ∧ tables.map List.length = [2, 0] :=
  ⟨by decide, by decide,
    extractTables_wellFormed ['\t'] _ [⟨TokenType.TextToken, ['y']⟩] (by decide) (by decide)⟩

/-- C2: a row, the tokens after a `tr` start tag up to the first `tr` end tag,
is flattened to the trimmed contents of all its text tokens, in order, joined
by the delimiter.  `extractRow` returns one entry for each text token of the
row and nothing for the other tokens, a text token of white space only gives
an empty entry, and `extractTable` joins the entries of each row of the table
with the delimiter. -/
theorem extractRow_entries (delimiter : Str) (err : TokErr) (inside rest : List Token)
    (t : TableElem) (h : ∀ x ∈ inside, isEndTag trName x = false) (ht : t.Scannable) :
    extractRow ⟨inside ++ endTag trName :: rest, err⟩ =
        Except.ok ((inside.filter (fun x => x.type = TokenType.TextToken)).map
          (fun x => TrimSpace x.data), ⟨rest, err⟩) ∧
      (rowEntries inside).length = inside.countP (fun x => x.type = TokenType.TextToken) ∧
      (∀ x ∈ inside, x.type = TokenType.TextToken → (∀ c ∈ x.data, isSpace c = true) →
        TrimSpace x.data = []) ∧
      extractTable delimiter ⟨startTag trName :: (inside ++ endTag trName :: endTag tableName :: rest),
          err⟩ = Except.ok ([Join (rowEntries inside) delimiter], ⟨rest, err⟩) ∧
      extractTable delimiter ⟨t.content ++ endTag tableName :: rest, err⟩ =
        Except.ok (t.rows.map (fun r => Join (rowEntries r.inside) delimiter), ⟨rest, err⟩) := by
  refine ⟨?_, ?_, ?_, ?_, ?_⟩
  · simp only [extractRow]
    rw [extractRowLoop_inside err inside rest [] h]
    simp [rowEntries]
  · simp [rowEntries, List.countP_eq_length_filter]
  · intro x _ _ hsp
    exact TrimSpace_eq_nil_of_all_space _ hsp
  · have := extractTableLoop_content delimiter err ⟨[], [⟨[], inside⟩], []⟩ rest
      ⟨by simpa using h, by simp⟩
    simp only [TableElem.content, RowElem.tokens, List.flatMap_cons, List.flatMap_nil,
      List.nil_append, List.append_nil, List.cons_append, List.append_assoc,
      List.singleton_append, List.map_cons, List.map_nil] at this
    simp only [extractTable]
    rw [this]
  · simp only [extractTable]
    rw [extractTableLoop_content delimiter err t rest ht]

/-- Witness of C2: the row `<tr> a <td>   b </tr>` with the tab delimiter. -/
theorem extractRow_entries_witness :
    (∀ x ∈ [(⟨TokenType.TextToken, [' ', 'a']⟩ : Token), ⟨TokenType.StartTagToken, ['t', 'd']⟩,
        ⟨TokenType.TextToken, [' ', ' ']⟩, ⟨TokenType.TextToken, ['b', ' ']⟩],
        isEndTag trName x = false) ∧
      extractTable ['\t'] ⟨startTag trName ::
          ([⟨TokenType.TextToken, [' ', 'a']⟩, ⟨TokenType.StartTagToken, ['t', 'd']⟩,
            ⟨TokenType.TextToken, [' ', ' ']⟩, ⟨TokenType.TextToken, ['b', ' ']⟩] ++
            endTag trName :: endTag tableName :: []), TokErr.EOF⟩ =
        Except.ok ([['a', '\t', '\t', 'b']], ⟨[], TokErr.EOF⟩) :=
  ⟨by decide,
    (extractRow_entries ['\t'] TokErr.EOF
      [⟨TokenType.TextToken, [' ', 'a']⟩, ⟨TokenType.StartTagToken, ['t', 'd']⟩,
        ⟨TokenType.TextToken, [' ', ' ']⟩, ⟨TokenType.TextToken, ['b', ' ']⟩] []
      ⟨[], [], []⟩ (by decide) (by decide)).2.2.2.1⟩

/-- C3: when the tokenizer reports an error other than a clean end-of-stream,
wherever in the token stream, `extractTables` fails with that error and
returns no table; `extractTable` and `extractRow` hand the same error up when
they meet it. -/
theorem extractTables_error (delimiter : Str) (toks : List Token) (e : Nat) :
    extractTables delimiter ⟨toks, TokErr.other e⟩ = Except.error e ∧
      (∀ e', extractTable delimiter ⟨toks, TokErr.other e⟩ = Except.error e' → e' = e) ∧
      (∀ e', extractRow ⟨toks, TokErr.other e⟩ = Except.error e' → e' = e) := by
  refine ⟨extractTablesLoop_error delimiter e toks [], ?_, ?_⟩
  · intro e' h
    simp only [extractTable] at h
    split at h
    · simp at h
    · rename_i e'' heq
      simp only [Except.error.injEq] at h
      subst h
      exact extractTableLoop_error delimiter e _ toks [] heq
  · intro e' h
    simp only [extractRow] at h
    split at h
    · simp at h
    · rename_i e'' heq
      simp only [Except.error.injEq] at h
      subst h
      exact extractRowLoop_error e _ toks [] heq

/-! ## Keyword Filter: lemmas and claims -/

/-- The model of `strings.Contains` decides whether `substr` occurs in `s` as a
contiguous run of characters. -/
theorem Contains_iff_infix (s substr : Str) : Contains s substr = true ↔ substr <:+: s := by
  unfold Contains
  induction s with
  | nil =>
    cases substr <;> simp [Index]
  | cons c cs ih =>
    rw [Index, List.infix_cons_iff]
    by_cases hp : substr.isPrefixOf (c :: cs) = true
    · rw [if_pos hp]
      simp [List.isPrefixOf_iff_prefix.mp hp]
    · rw [if_neg hp]
      have hnp : ¬ substr <+: c :: cs := fun h => hp (List.isPrefixOf_iff_prefix.mpr h)
      simp only [Option.isSome_map', hnp, false_or]
      exact ih

/-- The inner loop of the filter appends the table when one of the rows left
contains the keyword. -/
theorem filterRowsLoop_eq (table : List Str) (keyword : Str) (rows : List Str)
    (acc : List (List Str)) :
    filterRowsLoop table keyword rows acc =
      if rows.any (fun row => Contains row keyword) then acc ++ [table] else acc := by
  induction rows with
  | nil => simp [filterRowsLoop]
  | cons r rs ih =>
    rw [filterRowsLoop]
    by_cases hr : Contains r keyword = true
    · simp [hr]
    · rw [if_neg hr, ih]
      simp [hr]

/-- The outer loop of the filter appends the tables that pass, in order. -/
theorem filterTablesLoop_eq (keyword : Str) (tables acc : List (List Str)) :
    filterTablesLoop keyword tables acc =
      acc ++ tables.filter (fun table => table.any (fun row => Contains row keyword)) := by
  induction tables generalizing acc with
  | nil => simp [filterTablesLoop]
  | cons t ts ih =>
    rw [filterTablesLoop, ih, filterRowsLoop_eq, List.filter_cons]
    by_cases ht : (t.any fun row => Contains row keyword) = true
    · simp [ht]
    · simp [ht]

/-- The filter as a list filter on the test of `strings.Contains`. -/
theorem filterTablesByKeyword_eq (tables : List (List Str)) (keyword : Str) :
    filterTablesByKeyword tables keyword =
      tables.filter (fun table => table.any (fun row => Contains row keyword)) := by
  simp [filterTablesByKeyword, filterTablesLoop_eq]

/-- C4: `filterTablesByKeyword` returns exactly the input tables that have a
flattened row containing the keyword as a substring (character for character,
so case-sensitive), each once, unchanged and in input order: it is the
order-preserving filter of the input by `some row contains the keyword`. -/
theorem filterTablesByKeyword_filter (tables : List (List Str)) (keyword : Str) :
    filterTablesByKeyword tables keyword =
      tables.filter (fun table => decide (∃ row ∈ table, keyword <:+: row)) := by
  rw [filterTablesByKeyword_eq]
  apply List.filter_congr
  intro table _
  rw [Bool.eq_iff_iff]
  simp [List.any_eq_true, Contains_iff_infix]

/-- C5: the result of `filterTablesByKeyword` is a sublist of the input, and it
is empty when no row of any input table contains the keyword. -/
theorem filterTablesByKeyword_sublist (tables : List (List Str)) (keyword : Str) :
    (filterTablesByKeyword tables keyword).Sublist tables ∧
      ((∀ table ∈ tables, ∀ row ∈ table, ¬ keyword <:+: row) →
        filterTablesByKeyword tables keyword = []) := by
  rw [filterTablesByKeyword_eq]
  refine ⟨List.filter_sublist _, fun h => ?_⟩
  rw [List.filter_eq_nil_iff]
  intro table ht
  simp only [List.any_eq_true, not_exists, not_and, Bool.not_eq_true]
  intro row hrow
  have := h table ht row hrow
  rw [← Contains_iff_infix] at this
  simpa using this

/-- Witness of C5: the keyword `DST` occurs in no row of these tables. -/
theorem filterTablesByKeyword_sublist_witness :
    (∀ table ∈ [[['a', 'b'], ['D', 'S']], [], [['d', 's', 't']]], ∀ row ∈ table,
        ¬ ['D', 'S', 'T'] <:+: row) ∧
      filterTablesByKeyword [[['a', 'b'], ['D', 'S']], [], [['d', 's', 't']]] ['D', 'S', 'T'] = [] :=
  ⟨by decide,
    (filterTablesByKeyword_sublist [[['a', 'b'], ['D', 'S']], [], [['d', 's', 't']]]
      ['D', 'S', 'T']).2 (by decide)⟩

/-! ## Package `strings`: lemmas -/

/-- Trimming is dropping the leading and then the trailing white space. -/
theorem TrimSpace_eq (s : Str) : TrimSpace s = (s.dropWhile isSpace).rdropWhile isSpace := rfl

/-- A trimmed string is a contiguous part of the string. -/
theorem TrimSpace_part (s : Str) : TrimSpace s <:+: s := by
  rw [TrimSpace_eq]
  exact (List.rdropWhile_prefix isSpace _).isInfix.trans (List.dropWhile_suffix isSpace).isInfix

/-- A trimmed string does not start with white space. -/
theorem TrimSpace_head (s : Str) (a : Char) (h : (TrimSpace s).head? = some a) :
    isSpace a = false := by
  rw [TrimSpace_eq] at h
  obtain ⟨t, ht⟩ := List.rdropWhile_prefix isSpace (s.dropWhile isSpace)
  cases hr : List.rdropWhile isSpace (s.dropWhile isSpace) with
  | nil => rw [hr] at h; simp at h
  | cons b bs =>
    rw [hr] at h ht
    simp only [List.head?_cons, Option.some.injEq] at h
    subst h
    have := List.head?_dropWhile_not isSpace s
    rw [← ht] at this
    simpa using this

/-- A trimmed string does not end with white space. -/
theorem TrimSpace_getLast (s : Str) (a : Char) (h : (TrimSpace s).getLast? = some a) :
    isSpace a = false := by
  rw [TrimSpace_eq] at h
  have hne : List.rdropWhile isSpace (s.dropWhile isSpace) ≠ [] := by
    intro h0; rw [h0] at h; simp at h
  have := List.rdropWhile_last_not isSpace (s.dropWhile isSpace) hne
  rw [List.getLast?_eq_getLast _ hne, Option.some.injEq] at h
  rw [h] at this
  simpa using this

/-- A string that neither starts nor ends with white space is left as it is. -/
theorem TrimSpace_of_trimmed (s : Str) (hh : ∀ a, s.head? = some a → isSpace a = false)
    (hl : ∀ a, s.getLast? = some a → isSpace a = false) : TrimSpace s = s := by
  have h1 : s.dropWhile isSpace = s := by
    cases s with
    | nil => rfl
    | cons a as =>
      have := hh a rfl
      simp [List.dropWhile_cons, this]
  rw [TrimSpace_eq, h1, List.rdropWhile_eq_self_iff]
  intro hne
  have := hl (s.getLast hne) (List.getLast?_eq_getLast _ hne)
  simp [this]

/-- Stepping over `k` characters in the replacement scan. -/
theorem replaceScan_skip (old new : Str) (k : Nat) (s : Str) :
    replaceScan old new k s = replaceScan old new 0 (s.drop k) := by
  induction k generalizing s with
  | zero => rfl
  | succ k ih =>
    cases s with
    | nil => simp [replaceScan]
    | cons c cs => rw [replaceScan, ih]; rfl

/-- The replacement scan at a position where `old` occurs. -/
theorem replaceScan_match (old new : Str) (c : Char) (cs : Str)
    (h : old.isPrefixOf (c :: cs) = true) :
    replaceScan old new 0 (c :: cs) = new ++ replaceScan old new 0 (cs.drop (old.length - 1)) := by
  rw [replaceScan, if_pos h, replaceScan_skip]

/-- The replacement scan at a position where `old` does not occur. -/
theorem replaceScan_noMatch (old new : Str) (c : Char) (cs : Str)
    (h : ¬ old.isPrefixOf (c :: cs) = true) :
    replaceScan old new 0 (c :: cs) = c :: replaceScan old new 0 cs := by
  rw [replaceScan, if_neg h]

/-- A string in which `old` does not occur is left as it is. -/
theorem replaceScan_of_absent (old new : Str) (s : Str) (h : ¬ old <:+: s) :
    replaceScan old new 0 s = s := by
  induction s with
  | nil => rfl
  | cons c cs ih =>
    rw [List.infix_cons_iff, not_or] at h
    have hp : ¬ old.isPrefixOf (c :: cs) = true := fun hp => h.1 (List.isPrefixOf_iff_prefix.mp hp)
    rw [replaceScan_noMatch old new c cs hp, ih h.2]

/-- A space-free string that starts the result of replacing by a space starts
the original string. -/
theorem prefix_of_prefix_replaceScan (old : Str) (q s : Str) (hq : ' ' ∉ q)
    (h : q <+: replaceScan old [' '] 0 s) : q <+: s := by
  induction s generalizing q with
  | nil => simpa [replaceScan] using h
  | cons c cs ih =>
    cases q with
    | nil => exact List.nil_prefix
    | cons a q' =>
      have ha : a ≠ ' ' := fun h0 => hq (h0 ▸ List.mem_cons_self _ _)
      have hq' : ' ' ∉ q' := fun h0 => hq (List.mem_cons_of_mem _ h0)
      by_cases hp : old.isPrefixOf (c :: cs) = true
      · rw [replaceScan_match old _ c cs hp, List.singleton_append, List.cons_prefix_cons] at h
        exact absurd h.1 ha
      · rw [replaceScan_noMatch old _ c cs hp, List.cons_prefix_cons] at h
        rw [List.cons_prefix_cons]
        exact ⟨h.1, ih q' hq' h.2⟩

/-- A space-free string that occurs in the result of replacing by a space
occurs in the original string. -/
theorem infix_of_infix_replaceScan (old : Str) (q s : Str) (hq : ' ' ∉ q)
    (h : q <:+: replaceScan old [' '] 0 s) : q <:+: s := by
  generalize hn : s.length = n
  induction n using Nat.strong_induction_on generalizing s with
  | _ n ih =>
    subst hn
    cases s with
    | nil => simpa [replaceScan] using h
    | cons c cs =>
      by_cases hp : old.isPrefixOf (c :: cs) = true
      · rw [replaceScan_match old _ c cs hp, List.singleton_append, List.infix_cons_iff] at h
        rcases h with h | h
        · cases q with
          | nil => exact List.nil_infix
          | cons a q' =>
            rw [List.cons_prefix_cons] at h
            exact absurd h.1.symm (fun h0 => hq (h0 ▸ List.mem_cons_self _ _))
        · have := ih _ (by simp; omega) (cs.drop (old.length - 1)) h rfl
          exact List.infix_cons (this.trans (List.drop_suffix _ _).isInfix)
      · have hrw := replaceScan_noMatch old [' '] c cs hp
        rw [hrw, List.infix_cons_iff] at h
        rcases h with h | h
        · rw [← hrw] at h
          exact (prefix_of_prefix_replaceScan old q _ hq h).isInfix
        · exact List.infix_cons (ih _ (by simp) cs h rfl)

/-- After replacing a non-empty, space-free `old` by a space, `old` does not
occur in the result. -/
theorem not_infix_replaceScan (old : Str) (s : Str) (hne : old ≠ []) (hsp : ' ' ∉ old) :
    ¬ old <:+: replaceScan old [' '] 0 s := by
  generalize hn : s.length = n
  induction n using Nat.strong_induction_on generalizing s with
  | _ n ih =>
    subst hn
    intro h
    cases s with
    | nil => simp [replaceScan] at h; exact hne h
    | cons c cs =>
      by_cases hp : old.isPrefixOf (c :: cs) = true
      · rw [replaceScan_match old _ c cs hp, List.singleton_append, List.infix_cons_iff] at h
        rcases h with h | h
        · cases old with
          | nil => exact hne rfl
          | cons a q' =>
            rw [List.cons_prefix_cons] at h
            exact hsp (h.1 ▸ List.mem_cons_self _ _)
        · exact ih _ (by simp; omega) (cs.drop (old.length - 1)) rfl h
      · have hrw := replaceScan_noMatch old [' '] c cs hp
        rw [hrw, List.infix_cons_iff] at h
        rcases h with h | h
        · rw [← hrw] at h
          exact hp (List.isPrefixOf_iff_prefix.mpr (prefix_of_prefix_replaceScan old old _ hsp h))
        · exact ih _ (by simp) cs rfl h

/-- For a non-empty `old`, `ReplaceAll` is the replacement scan. -/
theorem ReplaceAll_of_ne_nil (s old new : Str) (h : old ≠ []) :
    ReplaceAll s old new = replaceScan old new 0 s := by
  cases old with
  | nil => exact absurd rfl h
  | cons a as => rfl

/-- A character occurs in a string exactly when the one-character string does. -/
theorem singleton_infix_iff_mem (a : Char) (s : Str) : [a] <:+: s ↔ a ∈ s := by
  constructor
  · rintro ⟨l, r, rfl⟩; simp
  · intro h
    obtain ⟨l, r, rfl⟩ := List.append_of_mem h
    exact ⟨l, r, by simp⟩

/-! ## Cell Normalizer: lemmas -/

/-- The range loop panics when it has more iterations left than the slice has
cells from the loop index on. -/
theorem cleanCellsLoop_none (delimiter : Str) (todo i : Nat) (cells : List Str)
    (h1 : 0 < todo) (h2 : cells.length < i + todo) :
    cleanCellsLoop delimiter todo i cells = none := by
  induction todo generalizing i cells with
  | zero => omega
  | succ todo ih =>
    rw [cleanCellsLoop]
    cases hget : cells.get? i with
    | none => rfl
    | some cell =>
      have hi : i < cells.length := by
        rw [List.get?_eq_getElem?] at hget
        exact (List.getElem?_eq_some_iff.mp hget).1
      simp only
      split
      · apply ih
        · omega
        · simp only [List.length_append, List.length_take, List.length_drop, List.length_set]
          omega
      · apply ih
        · omega
        · simp only [List.length_set]
          omega

/-- The range loop in closed form, `pre` being the cells already visited and
`rest` the cells still to be visited: it returns when no cell but the last
is empty after cleaning, and then with the non-empty cleaned cells. -/
theorem cleanCellsLoop_eq (delimiter : Str) (pre rest : List Str) :
    cleanCellsLoop delimiter rest.length pre.length (pre ++ rest) =
      if ∀ c ∈ rest.dropLast, cleanCell delimiter c ≠ [] then
        some (pre ++ (rest.map (cleanCell delimiter)).filter (fun cell => cell ≠ []))
      else none := by
  induction rest generalizing pre with
  | nil => simp [cleanCellsLoop]
  | cons c rest ih =>
    have hget : (pre ++ c :: rest).get? pre.length = some c := by
      rw [List.get?_eq_getElem?, List.getElem?_append_right (Nat.le_refl _)]
      simp
    rw [List.length_cons, cleanCellsLoop, hget]
    simp only
    have hset : (pre ++ c :: rest).set pre.length (cleanCell delimiter c) =
        pre ++ cleanCell delimiter c :: rest := by simp
    rw [hset]
    by_cases hc : cleanCell delimiter c = []
    · have hdrop : (pre ++ cleanCell delimiter c :: rest).drop (pre.length + 1) = rest := by
        rw [show pre ++ cleanCell delimiter c :: rest = (pre ++ [cleanCell delimiter c]) ++ rest
          by simp]
        exact List.drop_left' (by simp)
      rw [if_pos hc, List.take_left, hdrop]
      cases rest with
      | nil => simp [cleanCellsLoop, hc]
      | cons c' rest' =>
        rw [cleanCellsLoop_none delimiter _ _ _ (by simp)
          (by simp only [List.length_append, List.length_cons]; omega)]
        rw [if_neg]
        intro hall
        exact hall c (by simp) hc
    · rw [if_neg hc]
      have := ih (pre ++ [cleanCell delimiter c])
      simp only [List.length_append, List.length_singleton, List.append_assoc,
        List.singleton_append] at this
      rw [this]
      cases rest with
      | nil => simp [hc]
      | cons c' rest' =>
        simp only [List.dropLast_cons₂, List.mem_cons, forall_eq_or_imp, List.map_cons]
        simp only [hc, not_false_eq_true, true_and, ne_eq, List.filter_cons, decide_True,
          if_true, List.cons_append, List.nil_append]

/-- The function `cleanCells` in closed form. -/
theorem cleanCells_eq (cells : List Str) (delimiter : Str) :
    cleanCells cells delimiter =
      if ∀ c ∈ cells.dropLast, cleanCell delimiter c ≠ [] then
        some ((cells.map (cleanCell delimiter)).filter (fun cell => cell ≠ []))
      else none := by
  have := cleanCellsLoop_eq delimiter [] cells
  simpa [cleanCells] using this

/-- Cleaning leaves a cell as it is when the cell has no delimiter, no
non-breaking space, no double space and no white space at its ends. -/
theorem cleanCell_of_clean (delimiter cell : Str) (hne : delimiter ≠ [])
    (hd : ¬ delimiter <:+: cell) (hn : nbsp ∉ cell) (hs : ¬ [' ', ' '] <:+: cell)
    (hh : ∀ a, cell.head? = some a → isSpace a = false)
    (hl : ∀ a, cell.getLast? = some a → isSpace a = false) :
    cleanCell delimiter cell = cell := by
  have hn' : ¬ [nbsp] <:+: cell := fun h => hn ((singleton_infix_iff_mem _ _).mp h)
  simp only [cleanCell]
  rw [ReplaceAll_of_ne_nil cell delimiter _ hne, replaceScan_of_absent _ _ _ hd,
    ReplaceAll_of_ne_nil cell [nbsp] _ (by simp), replaceScan_of_absent _ _ _ hn',
    ReplaceAll_of_ne_nil cell "  ".toList _ (by decide),
    replaceScan_of_absent "  ".toList _ _ hs,
    TrimSpace_of_trimmed _ hh hl]

/-- The split scan passes over a piece without the separator's first character. -/
theorem splitScan_free (d : Char) (sep' : Str) (c rest cur : Str) (h : d ∉ c) :
    splitScan (d :: sep') 0 (c ++ rest) cur = splitScan (d :: sep') 0 rest (cur ++ c) := by
  induction c generalizing cur with
  | nil => simp
  | cons a as ih =>
    have ha : a ≠ d := fun h0 => h (h0 ▸ List.mem_cons_self _ _)
    have hp : ¬ (d :: sep').isPrefixOf (a :: (as ++ rest)) = true := by
      simp [List.isPrefixOf, Ne.symm ha]
    rw [List.cons_append, splitScan, if_neg hp, ih _ (fun h0 => h (List.mem_cons_of_mem _ h0))]
    simp

/-- Splitting at the doubled delimiter gives back pieces that are free of the
delimiter and were joined with the doubled delimiter. -/
theorem splitScan_Join (d : Char) (c : Str) (cs : List Str) (cur : Str)
    (h : ∀ x ∈ c :: cs, d ∉ x) :
    splitScan [d, d] 0 (Join (c :: cs) [d, d]) cur = (cur ++ c) :: cs := by
  induction cs generalizing c cur with
  | nil =>
    have := splitScan_free d [d] c [] cur (h c (List.mem_cons_self _ _))
    rw [List.append_nil] at this
    simp [Join, this, splitScan]
  | cons c' cs' ih =>
    have hc := h c (List.mem_cons_self _ _)
    have hrest : ∀ x ∈ c' :: cs', d ∉ x := fun x hx => h x (List.mem_cons_of_mem _ hx)
    rw [Join, List.append_assoc, splitScan_free d [d] c _ cur hc]
    · simp only [List.cons_append, List.nil_append]
      rw [splitScan, if_pos (by simp [List.isPrefixOf])]
      simp only [List.length_cons, List.length_nil, Nat.zero_add, Nat.add_one_sub_one]
      rw [splitScan, ih c' [] hrest]
      simp
    · simp

/-- The cleaning of a cell with a non-empty delimiter, as three replacement
scans and a trim. -/
theorem cleanCell_eq_scan (delimiter cell : Str) (hne : delimiter ≠ []) :
    cleanCell delimiter cell =
      TrimSpace (replaceScan [' ', ' '] [' '] 0 (replaceScan [nbsp] [' '] 0
        (replaceScan delimiter [' '] 0 cell))) := by
  simp only [cleanCell]
  rw [ReplaceAll_of_ne_nil cell delimiter _ hne, ReplaceAll_of_ne_nil _ [nbsp] _ (by simp),
    ReplaceAll_of_ne_nil _ "  ".toList _ (by decide)]
  rfl

/-- A cleaned cell holds no delimiter, when the delimiter is not empty and has
no space. -/
theorem cleanCell_no_delimiter (delimiter cell : Str) (hne : delimiter ≠ [])
    (hsp : ' ' ∉ delimiter) : ¬ delimiter <:+: cleanCell delimiter cell := by
  rw [cleanCell_eq_scan delimiter cell hne]
  intro h
  have h1 := h.trans (TrimSpace_part _)
  have h2 := infix_of_infix_replaceScan _ _ _ hsp h1
  have h3 := infix_of_infix_replaceScan _ _ _ hsp h2
  exact not_infix_replaceScan delimiter cell hne hsp h3

/-- A cleaned cell holds no non-breaking space. -/
theorem cleanCell_no_nbsp (delimiter cell : Str) (hne : delimiter ≠ []) :
    nbsp ∉ cleanCell delimiter cell := by
  rw [cleanCell_eq_scan delimiter cell hne, ← singleton_infix_iff_mem]
  intro h
  have hsp : ' ' ∉ [nbsp] := by decide
  have h1 := h.trans (TrimSpace_part _)
  have h2 := infix_of_infix_replaceScan _ _ _ hsp h1
  exact not_infix_replaceScan [nbsp] _ (by simp) hsp h2

/-! ## Cell Normalizer: the claims -/

/-- C6: round trip of the Cell Normalizer.  For a one-character delimiter `d`
and a non-empty list of cells, each non-empty, free of `d`, of non-breaking
spaces and of double spaces and without white space at its ends, `splitRow`
and then `cleanCells` on the cells joined by `d d` return exactly the cells;
and the row `A`, tab, tab, `B` gives the cells `A` and `B` for the tab
delimiter. -/
theorem splitRow_cleanCells_roundtrip (d : Char) (cells : List Str) (hne : cells ≠ [])
    (h : ∀ c ∈ cells, c ≠ [] ∧ d ∉ c ∧ nbsp ∉ c ∧ ¬ [' ', ' '] <:+: c ∧
      (∀ a, c.head? = some a → isSpace a = false) ∧
      (∀ a, c.getLast? = some a → isSpace a = false)) :
    cleanCells (splitRow (Join cells [d, d]) [d]) [d] = some cells ∧
      cleanCells (splitRow (['A'] ++ ['\t'] ++ ['\t'] ++ ['B']) ['\t']) ['\t'] =
        some [['A'], ['B']] := by
  refine ⟨?_, by decide⟩
  have hsplit : Split (Join cells [d, d]) ([d] ++ [d]) = cells := by
    cases cells with
    | nil => exact absurd rfl hne
    | cons c cs =>
      have := splitScan_Join d c cs [] (fun x hx => (h x hx).2.1)
      simpa [Split] using this
  have htrim : cells.map TrimSpace = cells := by
    conv => rhs; rw [← List.map_id cells]
    apply List.map_congr_left
    intro c hc
    exact TrimSpace_of_trimmed c (h c hc).2.2.2.2.1 (h c hc).2.2.2.2.2
  have hclean : ∀ c ∈ cells, cleanCell [d] c = c := by
    intro c hc
    have hc' := h c hc
    exact cleanCell_of_clean [d] c (by simp)
      (fun hin => hc'.2.1 ((singleton_infix_iff_mem _ _).mp hin)) hc'.2.2.1 hc'.2.2.2.1
      hc'.2.2.2.2.1 hc'.2.2.2.2.2
  have hmap : cells.map (cleanCell [d]) = cells := by
    conv => rhs; rw [← List.map_id cells]
    exact List.map_congr_left hclean
  simp only [splitRow]
  rw [hsplit, htrim, cleanCells_eq, if_pos, hmap]
  · rw [List.filter_eq_self.mpr]
    intro c hc
    simpa using (h c hc).1
  · intro c hc
    rw [hclean c (List.dropLast_subset _ hc)]
    exact (h c (List.dropLast_subset _ hc)).1

/-- Witness of C6: the cells `New York` and `x` with the delimiter `;`. -/
theorem splitRow_cleanCells_roundtrip_witness :
    (∀ c ∈ [['N', 'e', 'w', ' ', 'Y', 'o', 'r', 'k'], ['x']],
        c ≠ [] ∧ ';' ∉ c ∧ nbsp ∉ c ∧ ¬ [' ', ' '] <:+: c ∧
        (∀ a, c.head? = some a → isSpace a = false) ∧
        (∀ a, c.getLast? = some a → isSpace a = false)) ∧
      cleanCells (splitRow (Join [['N', 'e', 'w', ' ', 'Y', 'o', 'r', 'k'], ['x']] [';', ';'])
        [';']) [';'] = some [['N', 'e', 'w', ' ', 'Y', 'o', 'r', 'k'], ['x']] :=
  ⟨by simp [nbsp, isSpace]; decide,
    (splitRow_cleanCells_roundtrip ';' [['N', 'e', 'w', ' ', 'Y', 'o', 'r', 'k'], ['x']]
      (by simp) (by simp [nbsp, isSpace]; decide)).1⟩

/-- C7: on the cells `""`, `"A"` with the tab delimiter `cleanCells` does not
return the rebuilt sequence: the first cell is cut out of the slice and the
second iteration reads `cells[1]` of a slice of length one, a runtime panic,
where the filter/rebuild pass gives the one cell `A`.  Whenever `cleanCells`
does return, it returns what the filter/rebuild pass gives. -/
theorem cleanCells_panics_after_empty_cell :
    cleanCells [[], ['A']] ['\t'] = none ∧
      cleanCellsRebuild [[], ['A']] ['\t'] = [['A']] ∧
      ∀ (cells : List Str) (delimiter : Str) (record : List Str),
        cleanCells cells delimiter = some record → record = cleanCellsRebuild cells delimiter := by
  refine ⟨by decide, by decide, ?_⟩
  intro cells delimiter record h
  rw [cleanCells_eq] at h
  split at h
  · simp only [Option.some.injEq] at h
    rw [← h]; rfl
  · simp at h

/-- C8: cell invariant.  For a non-empty delimiter without a space, every cell
of the record that `splitRow` followed by `cleanCells` returns is non-empty,
has no white space at its ends, and holds neither the delimiter nor a
non-breaking space. -/
theorem cleanCells_cell_invariant (row delimiter : Str) (record : List Str)
    (hne : delimiter ≠ []) (hsp : ' ' ∉ delimiter)
    (h : cleanCells (splitRow row delimiter) delimiter = some record) :
    ∀ cell ∈ record, cell ≠ [] ∧
      (∀ a, cell.head? = some a → isSpace a = false) ∧
      (∀ a, cell.getLast? = some a → isSpace a = false) ∧
      ¬ delimiter <:+: cell ∧ nbsp ∉ cell := by
  intro cell hcell
  rw [cleanCells_eq] at h
  split at h
  · simp only [Option.some.injEq] at h
    rw [← h, List.mem_filter, List.mem_map] at hcell
    obtain ⟨⟨c, _, hc⟩, hcne⟩ := hcell
    subst hc
    refine ⟨by simpa using hcne, fun a ha => ?_, fun a ha => ?_,
      cleanCell_no_delimiter delimiter c hne hsp, cleanCell_no_nbsp delimiter c hne⟩
    · exact TrimSpace_head _ a ha
    · exact TrimSpace_getLast _ a ha
  · simp at h

/-- Witness of C8: the row `A`, tab, tab, ` b`, tab, `c `, with a non-breaking
space after `c`, and the tab delimiter. -/
theorem cleanCells_cell_invariant_witness :
    (['\t'] : Str) ≠ [] ∧ ' ' ∉ (['\t'] : Str) ∧
      cleanCells (splitRow ['A', '\t', '\t', ' ', 'b', '\t', 'c', nbsp] ['\t']) ['\t'] =
        some [['A'], ['b', ' ', 'c']] ∧
      ∀ cell ∈ [['A'], ['b', ' ', 'c']], cell ≠ [] ∧
        (∀ a, cell.head? = some a → isSpace a = false) ∧
        (∀ a, cell.getLast? = some a → isSpace a = false) ∧
        ¬ (['\t'] : Str) <:+: cell ∧ nbsp ∉ cell :=
  ⟨by decide, by decide, by decide,
    cleanCells_cell_invariant ['A', '\t', '\t', ' ', 'b', '\t', 'c', nbsp] ['\t']
      [['A'], ['b', ' ', 'c']] (by decide) (by decide) (by decide)⟩

/-! ## Writer: lemmas and claim -/

/-- The row loop of `extractCellsFromTables` over two runs of rows. -/
theorem extractCellsRowsLoop_append (delimiter : Str) (a b : List Str)
    (acc : List (List Str)) :
    extractCellsRowsLoop delimiter (a ++ b) acc =
      (extractCellsRowsLoop delimiter a acc).bind (extractCellsRowsLoop delimiter b) := by
  induction a generalizing acc with
  | nil => rfl
  | cons r rs ih =>
    rw [List.cons_append, extractCellsRowsLoop, extractCellsRowsLoop]
    cases cleanCells (splitRow r delimiter) delimiter with
    | none => rfl
    | some cells => exact ih _

/-- The nested loops of `extractCellsFromTables` visit the rows of the tables
in table-then-row order. -/
theorem extractCellsTablesLoop_flatten (delimiter : Str) (tables : List (List Str))
    (acc : List (List Str)) :
    extractCellsTablesLoop delimiter tables acc =
      extractCellsRowsLoop delimiter tables.flatten acc := by
  induction tables generalizing acc with
  | nil => rfl
  | cons t ts ih =>
    rw [extractCellsTablesLoop, List.flatten_cons, extractCellsRowsLoop_append]
    cases extractCellsRowsLoop delimiter t acc with
    | none => rfl
    | some cells => exact ih _

/-- When every row normalizes, the row loop appends the normalized records. -/
theorem extractCellsRowsLoop_of_map (delimiter : Str) (rows : List Str)
    (records acc : List (List Str))
    (h : rows.map (fun row => cleanCells (splitRow row delimiter) delimiter) =
      records.map some) :
    extractCellsRowsLoop delimiter rows acc = some (acc ++ records) := by
  induction rows generalizing records acc with
  | nil =>
    cases records with
    | nil => simp [extractCellsRowsLoop]
    | cons r rs => simp at h
  | cons row rows ih =>
    cases records with
    | nil => simp at h
    | cons r rs =>
      simp only [List.map_cons, List.cons.injEq] at h
      rw [extractCellsRowsLoop, h.1]
      simp only
      rw [ih rs _ h.2]
      simp

/-- C9: when every row of the tables normalizes (`splitRow`, then
`cleanCells`), to the records `header :: others` in table-then-row order, the
records that `writeTablesToCSV` builds and hands to the writer are `header`
with the one field `Additional Notes` appended at its end, and then `others`
unchanged and in order; there are as many records as the tables hold rows.
The writer receives them once the file is created and the first character of
the delimiter is taken. -/
theorem writeTablesToCSV_records (tables : List (List Str)) (delimiter : Str)
    (header : List Str) (others : List (List Str))
    (hnorm : tables.flatten.map (fun row => cleanCells (splitRow row delimiter) delimiter) =
      (header :: others).map some) :
    csvRecords tables delimiter = some ((header ++ [additionalNotes]) :: others) ∧
      (delimiter ≠ [] → writeTablesToCSV true tables delimiter =
        WriteOutcome.writeAll ((header ++ [additionalNotes]) :: others)) ∧
      ((header ++ [additionalNotes]) :: others).length = (tables.map List.length).sum := by
  have hcells : extractCellsFromTables tables delimiter = some (header :: others) := by
    rw [extractCellsFromTables, extractCellsTablesLoop_flatten,
      extractCellsRowsLoop_of_map delimiter _ _ [] hnorm]
    rfl
  have hrec : csvRecords tables delimiter = some ((header ++ [additionalNotes]) :: others) := by
    simp [csvRecords, hcells]
  refine ⟨hrec, fun hd => ?_, ?_⟩
  · cases delimiter with
    | nil => exact absurd rfl hd
    | cons a as => simp [writeTablesToCSV, hrec]
  · have := congrArg List.length hnorm
    simp only [List.length_map, List.length_flatten, List.length_cons] at this
    simp only [List.length_cons]
    omega

/-- Witness of C9: an empty table, a table of two rows and a table of one row,
with the tab delimiter. -/
theorem writeTablesToCSV_records_witness :
    ([[], [['A', '\t', '\t', 'B'], ['c']], [['d']]] : List (List Str)).flatten.map
          (fun row => cleanCells (splitRow row ['\t']) ['\t']) =
        ([['A'], ['B']] :: [[['c']], [['d']]]).map some ∧
      writeTablesToCSV true [[], [['A', '\t', '\t', 'B'], ['c']], [['d']]] ['\t'] =
        WriteOutcome.writeAll [[['A'], ['B'], additionalNotes], [['c']], [['d']]] :=
  ⟨by decide,
    (writeTablesToCSV_records [[], [['A', '\t', '\t', 'B'], ['c']], [['d']]] ['\t']
      [['A'], ['B']] [[['c']], [['d']]] (by decide)).2.1 (by decide)⟩

/-! ## Secondary Listing Generator: lemma and claim -/

/-- The loop of `cx1_sample_array` past the header, `pre` being the records
already visited and `rest` the records still to be visited: it writes one
line for each record of `rest`, numbered by the record's position. -/
theorem sampleArrayLoop_eq (pre rest : List (List Str)) (out : Str) (hpre : 0 < pre.length)
    (h : ∀ r ∈ rest, r ≠ []) :
    sampleArrayLoop pre.length rest out =
      some (out ++ (List.range' pre.length rest.length).flatMap
        (fun i => validTimezonesLine i (((pre ++ rest).getD i []).headD []))) := by
  induction rest generalizing pre out with
  | nil => simp [sampleArrayLoop]
  | cons r rest ih =>
    cases r with
    | nil => exact absurd rfl (h [] (List.mem_cons_self _ _))
    | cons t ts =>
      have hk : pre.length ≠ 0 := by omega
      rw [sampleArrayLoop]
      simp only [List.get?_cons_zero, if_neg hk]
      have := ih (pre ++ [t :: ts]) (out ++ validTimezonesLine pre.length t) (by simp)
        (fun r hr => h r (List.mem_cons_of_mem _ hr))
      simp only [List.length_append, List.length_singleton, List.append_assoc,
        List.singleton_append] at this
      rw [this, List.length_cons, List.range'_succ, List.flatMap_cons]
      have hget : (pre ++ (t :: ts) :: rest).getD pre.length [] = t :: ts := by
        rw [List.getD_eq_getElem?_getD, List.getElem?_append_right (Nat.le_refl _)]
        simp
      rw [hget]
      simp

/-- C10: for every source URL and all records, each with at least one field,
the text that `cx1_sample_array` emits is the line `// <url>` followed, for
each `i` from 1 to `n - 1` in increasing order, by the line
`VALID_TIMEZONES[i] = "<first field of record i>"`; record 0, the header,
gives no line.  The records `Timezone, Additional Notes` and
`America/New_York, -05:00` give the line
`VALID_TIMEZONES[1] = "America/New_York"`. -/
theorem cx1_sample_array_lines (webpage : Str) (records : List (List Str))
    (h : ∀ r ∈ records, r ≠ []) :
    cx1_sample_array records webpage =
        some ("// ".toList ++ webpage ++ "\n".toList ++
          (List.range' 1 (records.length - 1)).flatMap
            (fun i => validTimezonesLine i ((records.getD i []).headD []))) ∧
      cx1_sample_array [["Timezone".toList, "Additional Notes".toList],
          ["America/New_York".toList, "-05:00".toList]] webpage =
        some ("// ".toList ++ webpage ++ "\n".toList ++
          "VALID_TIMEZONES[1] = \"America/New_York\"\n".toList) := by
  have main : ∀ recs : List (List Str), (∀ r ∈ recs, r ≠ []) →
      cx1_sample_array recs webpage =
        some ("// ".toList ++ webpage ++ "\n".toList ++
          (List.range' 1 (recs.length - 1)).flatMap
            (fun i => validTimezonesLine i ((recs.getD i []).headD []))) := by
    intro recs hrecs
    cases recs with
    | nil => simp [cx1_sample_array, sampleArrayLoop]
    | cons r0 rest =>
      cases r0 with
      | nil => exact absurd rfl (hrecs [] (List.mem_cons_self _ _))
      | cons t ts =>
        rw [cx1_sample_array, sampleArrayLoop]
        simp only [List.get?_cons_zero, if_true]
        have := sampleArrayLoop_eq [t :: ts] rest ("// ".toList ++ webpage ++ "\n".toList)
          (by simp) (fun r hr => hrecs r (List.mem_cons_of_mem _ hr))
        simpa using this
  refine ⟨main records h, ?_⟩
  rw [main _ (by simp)]
  simp only [List.length_cons, List.length_nil, Nat.zero_add, Nat.add_one_sub_one]
  simp [List.range']
  decide

/-- Witness of C10: a header and two data records. -/
theorem cx1_sample_array_lines_witness :
    (∀ r ∈ [[['T']], [['U', 'T', 'C'], ['0']], [['G', 'M', 'T']]], r ≠ []) ∧
      cx1_sample_array [[['T']], [['U', 'T', 'C'], ['0']], [['G', 'M', 'T']]] ['u'] =
        some ("// u\n".toList ++ "VALID_TIMEZONES[1] = \"UTC\"\n".toList ++
          "VALID_TIMEZONES[2] = \"GMT\"\n".toList) :=
  ⟨by decide, by
    rw [(cx1_sample_array_lines ['u'] [[['T']], [['U', 'T', 'C'], ['0']], [['G', 'M', 'T']]]
      (by decide)).1]
    decide⟩

/-! ## Fetcher: the claim -/

/-- Counterexample to C11 as stated: the status code 201 is a success (2xx)
code, and `downloadHTML` does not return the body of such a response but fails
with the error that carries the status code. -/
theorem downloadHTML_created_fails :
    ((200 : Int) ≤ 201 ∧ (201 : Int) < 300) ∧
      downloadHTML (Except.ok ⟨201, Except.ok [60, 112, 62]⟩) =
        Except.error (DownloadError.status 201) ∧
      downloadHTML (Except.ok ⟨201, Except.ok [60, 112, 62]⟩) ≠ Except.ok [60, 112, 62] := by
  refine ⟨by decide, ?_, ?_⟩ <;> simp [downloadHTML, StatusOK]

/-- C11, amended: for every response obtained without transport failure,
`downloadHTML` fails with the error carrying the status code whenever the
status code is not 200, so for every non-success code and also for the
success codes other than 200; and for the status code 200 it returns the
bytes read from the body unchanged, with no error. -/
theorem downloadHTML_status (status : Int) (read : Except Nat (List Nat)) (body : List Nat) :
    (status ≠ 200 →
        downloadHTML (Except.ok ⟨status, read⟩) = Except.error (DownloadError.status status)) ∧
      ((status < 200 ∨ 300 ≤ status) →
        downloadHTML (Except.ok ⟨status, read⟩) = Except.error (DownloadError.status status)) ∧
      downloadHTML (Except.ok ⟨200, Except.ok body⟩) = Except.ok body := by
  have h1 : status ≠ 200 →
      downloadHTML (Except.ok ⟨status, read⟩) = Except.error (DownloadError.status status) := by
    intro h
    simp [downloadHTML, StatusOK, h]
  refine ⟨h1, fun h => h1 (by omega), ?_⟩
  simp [downloadHTML, StatusOK]

/-- Witness of C11, amended: the status code 404 with a body that reads well. -/
theorem downloadHTML_status_witness :
    (404 : Int) ≠ 200 ∧
      downloadHTML (Except.ok ⟨404, Except.ok [110, 111]⟩) =
        Except.error (DownloadError.status 404) :=
  ⟨by decide, (downloadHTML_status 404 (Except.ok [110, 111]) []).1 (by decide)⟩

/-! ## Cell Normalizer: the range loop -/

/-- C14: for every list of cells and every delimiter, `cleanCells` completes
without an index-out-of-range panic exactly when none of the cells before the
last one is empty after cleaning; it then returns the cleaned cells, without
the last one when that one cleaned to empty. -/
theorem cleanCells_completes_iff (cells : List Str) (delimiter : Str) :
    ((cleanCells cells delimiter).isSome = true ↔
        ∀ c ∈ cells.dropLast, cleanCell delimiter c ≠ []) ∧
      ((∀ c ∈ cells.dropLast, cleanCell delimiter c ≠ []) →
        cleanCells cells delimiter =
          some (if (cells.getLast?.map (cleanCell delimiter)) = some [] then
            cells.dropLast.map (cleanCell delimiter)
          else cells.map (cleanCell delimiter))) := by
  rw [cleanCells_eq]
  constructor
  · by_cases h : ∀ c ∈ cells.dropLast, cleanCell delimiter c ≠ []
    · simp [h]
    · simp [h]
  · intro h
    rw [if_pos h]
    congr 1
    rcases List.eq_nil_or_concat cells with hnil | ⟨init, last, hcells⟩
    · subst hnil; simp
    · subst hcells
      rw [List.concat_eq_append] at h ⊢
      rw [List.dropLast_concat] at h ⊢
      by_cases hl : cleanCell delimiter last = []
      · simp [List.filter_append, hl]
        exact h
      · simp [List.filter_append, hl]
        exact h

/-- Witness of C14: three cells of which the last is empty after cleaning. -/
theorem cleanCells_completes_iff_witness :
    (∀ c ∈ ([['a'], [' ', 'b'], [' ']] : List Str).dropLast, cleanCell ['\t'] c ≠ []) ∧
      cleanCells [['a'], [' ', 'b'], [' ']] ['\t'] = some [['a'], ['b']] :=
  ⟨by decide, by
    rw [(cleanCells_completes_iff [['a'], [' ', 'b'], [' ']] ['\t']).2 (by decide)]
    decide⟩

/-! ## Writer: the header of an empty record list -/

/-- When every row normalizes, `extractCellsFromTables` returns one record for
each row. -/
theorem extractCellsFromTables_of_all (delimiter : Str) (rows : List Str)
    (acc : List (List Str))
    (h : ∀ r ∈ rows, cleanCells (splitRow r delimiter) delimiter ≠ none) :
    ∃ records, extractCellsRowsLoop delimiter rows acc = some (acc ++ records) ∧
      records.length = rows.length := by
  induction rows generalizing acc with
  | nil => exact ⟨[], by simp [extractCellsRowsLoop], rfl⟩
  | cons r rs ih =>
    cases hr : cleanCells (splitRow r delimiter) delimiter with
    | none => exact absurd hr (h r (List.mem_cons_self _ _))
    | some cells =>
      obtain ⟨records, hrec, hlen⟩ := ih (acc ++ [cells])
        (fun r' hr' => h r' (List.mem_cons_of_mem _ hr'))
      refine ⟨cells :: records, ?_, by simp [hlen]⟩
      rw [extractCellsRowsLoop, hr]
      simp only
      rw [hrec]
      simp

/-- C15: when the tables hold no row at all, the record construction of
`writeTablesToCSV` fails at reading element 0 of the empty record list, and
the call ends with a runtime panic, not with a returned error; so it does on
the empty list that `filterTablesByKeyword` returns when no row of any table
contains the keyword.  When the tables hold at least one row and every row
normalizes, the record construction does not fail. -/
theorem writeTablesToCSV_no_row (tables : List (List Str)) (keyword delimiter : Str) :
    (tables.flatten = [] →
        csvRecords tables delimiter = none ∧
          writeTablesToCSV true tables delimiter = WriteOutcome.panic) ∧
      csvRecords [] delimiter = none ∧
      ((∀ table ∈ tables, ∀ row ∈ table, ¬ keyword <:+: row) →
        filterTablesByKeyword tables keyword = [] ∧
          writeTablesToCSV true (filterTablesByKeyword tables keyword) delimiter =
            WriteOutcome.panic) ∧
      (tables.flatten ≠ [] →
        (∀ row ∈ tables.flatten, cleanCells (splitRow row delimiter) delimiter ≠ none) →
        (csvRecords tables delimiter).isSome = true ∧
          (delimiter ≠ [] → ∃ records,
            writeTablesToCSV true tables delimiter = WriteOutcome.writeAll records)) := by
  have hempty : ∀ ts : List (List Str), ts.flatten = [] →
      csvRecords ts delimiter = none ∧
        writeTablesToCSV true ts delimiter = WriteOutcome.panic := by
    intro ts hts
    have hcells : extractCellsFromTables ts delimiter = some [] := by
      rw [extractCellsFromTables, extractCellsTablesLoop_flatten, hts]
      rfl
    have hrec : csvRecords ts delimiter = none := by simp [csvRecords, hcells]
    refine ⟨hrec, ?_⟩
    cases delimiter with
    | nil => simp [writeTablesToCSV]
    | cons a as => simp [writeTablesToCSV, hrec]
  refine ⟨hempty tables, (hempty [] rfl).1, fun hkw => ?_, fun hne hall => ?_⟩
  · have hnil : filterTablesByKeyword tables keyword = [] := by
      rw [filterTablesByKeyword_eq, List.filter_eq_nil_iff]
      intro table ht
      simp only [List.any_eq_true, not_exists, not_and, Bool.not_eq_true]
      intro row hrow
      have := hkw table ht row hrow
      rw [← Contains_iff_infix] at this
      simpa using this
    rw [hnil]
    exact ⟨rfl, (hempty [] rfl).2⟩
  · obtain ⟨records, hrec, hlen⟩ := extractCellsFromTables_of_all delimiter tables.flatten [] hall
    have hcells : extractCellsFromTables tables delimiter = some records := by
      rw [extractCellsFromTables, extractCellsTablesLoop_flatten, hrec]
      rfl
    cases records with
    | nil =>
      simp only [List.length_nil] at hlen
      exact absurd (List.length_eq_zero.mp hlen.symm) hne
    | cons header others =>
      have hcsv : csvRecords tables delimiter =
          some ((header ++ [additionalNotes]) :: others) := by
        simp [csvRecords, hcells]
      refine ⟨by simp [hcsv], fun hd => ⟨(header ++ [additionalNotes]) :: others, ?_⟩⟩
      cases delimiter with
      | nil => exact absurd rfl hd
      | cons a as => simp [writeTablesToCSV, hcsv]

/-- Witness of C15: no row of these tables contains the keyword `DST`, and an
empty table holds no row. -/
theorem writeTablesToCSV_no_row_witness :
    (∀ table ∈ [[['a', 'b']], [['c']]], ∀ row ∈ table, ¬ ['D', 'S', 'T'] <:+: row) ∧
      writeTablesToCSV true (filterTablesByKeyword [[['a', 'b']], [['c']]] ['D', 'S', 'T'])
        ['\t'] = WriteOutcome.panic ∧
      ([[]] : List (List Str)).flatten = [] ∧
      writeTablesToCSV true [[]] ['\t'] = WriteOutcome.panic :=
  ⟨by decide,
    ((writeTablesToCSV_no_row [[['a', 'b']], [['c']]] ['D', 'S', 'T'] ['\t']).2.2.1
      (by decide)).2,
    by decide, by decide⟩

/-! ## Table Extractor: clean end-of-stream -/

/-- With a clean end-of-stream the row loop returns a row. -/
theorem extractRowLoop_EOF (toks : List Token) (row : List Str) :
    ∃ out rest, extractRowLoop TokErr.EOF toks row = Except.ok (out, rest) := by
  induction toks generalizing row with
  | nil => exact ⟨row, [], rfl⟩
  | cons x xs ih =>
    rw [extractRowLoop]
    split
    · exact ⟨_, _, rfl⟩
    · exact ih _

/-- With a clean end-of-stream the table loop returns a table. -/
theorem extractTableLoop_EOF (delimiter : Str) (toks : List Token) (rows : List (List Str)) :
    ∃ out rest, extractTableLoop delimiter TokErr.EOF toks rows = Except.ok (out, rest) := by
  generalize hn : toks.length = n
  induction n using Nat.strong_induction_on generalizing toks rows with
  | _ n ih =>
    subst hn
    cases toks with
    | nil => rw [extractTableLoop_nil]; exact ⟨_, _, rfl⟩
    | cons x xs =>
      rw [extractTableLoop_cons]
      split
      · obtain ⟨row, rest', hrow⟩ := extractRowLoop_EOF xs []
        have hlen := extractRowLoop_length _ xs [] row rest' hrow
        rw [hrow]
        simp only
        split
        · exact ⟨_, _, rfl⟩
        · exact ih rest'.length (by simp; omega) rest' _ rfl
      · split
        · exact ⟨_, _, rfl⟩
        · exact ih xs.length (by simp) xs _ rfl

/-- With a clean end-of-stream the outer loop returns the tables. -/
theorem extractTablesLoop_EOF (delimiter : Str) (toks : List Token)
    (tables : List (List Str)) :
    ∃ out, extractTablesLoop delimiter TokErr.EOF toks tables = Except.ok out := by
  generalize hn : toks.length = n
  induction n using Nat.strong_induction_on generalizing toks tables with
  | _ n ih =>
    subst hn
    cases toks with
    | nil => rw [extractTablesLoop_nil]; exact ⟨_, rfl⟩
    | cons x xs =>
      rw [extractTablesLoop_cons]
      split
      · obtain ⟨table, rest', htab⟩ := extractTableLoop_EOF delimiter xs []
        have hlen := extractTableLoop_length delimiter _ xs [] table rest' htab
        rw [htab]
        simp only
        exact ih rest'.length (by simp; omega) rest' _ rfl
      · exact ih xs.length (by simp) xs _ rfl

/-- With a clean end-of-stream and no row end tag left, the row loop returns
the entries collected up to the end of the stream. -/
theorem extractRowLoop_unterminated (inside : List Token) (row : List Str)
    (h : ∀ x ∈ inside, isEndTag trName x = false) :
    extractRowLoop TokErr.EOF inside row = Except.ok (row ++ rowEntries inside, []) := by
  induction inside generalizing row with
  | nil => simp [extractRowLoop, rowEntries]
  | cons x xs ih =>
    have hx : ¬ (x.type = TokenType.EndTagToken ∧ x.data = trName) := by
      have := h x (List.mem_cons_self _ _)
      simpa [isEndTag] using this
    rw [extractRowLoop]
    simp only [hx, if_false]
    rw [ih _ (fun y hy => h y (List.mem_cons_of_mem _ hy))]
    by_cases ht : x.type = TokenType.TextToken
    · simp [rowEntries, ht, List.filter_cons]
    · simp [rowEntries, ht, List.filter_cons]

/-- The table loop over the content of a table element whose end tag is
missing: at the clean end-of-stream it returns the rows completed so far. -/
theorem extractTableLoop_open (delimiter : Str) (t : TableElem) (h : t.Scannable) :
    extractTableLoop delimiter TokErr.EOF t.content [] =
      Except.ok (t.rows.map (fun r => Join (rowEntries r.inside) delimiter), []) := by
  unfold TableElem.content
  rw [extractTableLoop_rows delimiter _ _ _ _ h.1]
  have := extractTableLoop_skip delimiter TokErr.EOF t.after []
    ([] ++ t.rows.map (fun r => rowEntries r.inside)) h.2
  rw [List.append_nil] at this
  rw [this, extractTableLoop_nil]
  simp [List.map_map, Function.comp_def]

/-- The table loop over the content of a table element followed by a row
whose end tag is missing: at the clean end-of-stream it returns the rows
completed so far and the entries of the open row. -/
theorem extractTableLoop_open_row (delimiter : Str) (t : TableElem) (inside : List Token)
    (h : t.Scannable) (hin : ∀ x ∈ inside, isEndTag trName x = false) :
    extractTableLoop delimiter TokErr.EOF (t.content ++ startTag trName :: inside) [] =
      Except.ok ((t.rows.map (fun r => rowEntries r.inside) ++ [rowEntries inside]).map
        (fun row => Join row delimiter), []) := by
  have hstart : (startTag trName).type = TokenType.StartTagToken ∧
      (startTag trName).data = trName := ⟨rfl, rfl⟩
  have hnot : ¬ ((startTag trName).type = TokenType.EndTagToken ∧
      (startTag trName).data = tableName) := by simp [startTag]
  unfold TableElem.content
  rw [List.append_assoc, extractTableLoop_rows delimiter _ _ _ _ h.1,
    extractTableLoop_skip delimiter _ _ _ _ h.2, extractTableLoop_cons, if_pos hstart,
    extractRowLoop_unterminated inside [] hin]
  simp only [if_neg hnot, List.nil_append]
  rw [extractTableLoop_nil]

/-- C12: on a token stream that ends with a clean end-of-stream
`extractTables` succeeds.  When the stream ends inside a table that has no
`table` end tag, the result is the tables completed before it followed by the
open table as the last entry, with the rows completed so far; when the stream
ends inside a row of that table, the open row is the last row of that entry. -/
theorem extractTables_EOF (delimiter : Str) (toks : List Token) (ts : List TableElem)
    (t : TableElem) (inside : List Token)
    (hts : ∀ t' ∈ ts, (∀ x ∈ t'.before, isStartTag tableName x = false) ∧ t'.Scannable)
    (ht : (∀ x ∈ t.before, isStartTag tableName x = false) ∧ t.Scannable)
    (hin : ∀ x ∈ inside, isEndTag trName x = false) :
    (∃ tables, extractTables delimiter ⟨toks, TokErr.EOF⟩ = Except.ok tables) ∧
      extractTables delimiter
          ⟨ts.flatMap TableElem.tokens ++ (t.before ++ startTag tableName :: t.content),
            TokErr.EOF⟩ =
        Except.ok (ts.map (fun t' => t'.rows.map (fun r => Join (rowEntries r.inside) delimiter))
          ++ [t.rows.map (fun r => Join (rowEntries r.inside) delimiter)]) ∧
      extractTables delimiter
          ⟨ts.flatMap TableElem.tokens ++
            (t.before ++ startTag tableName :: (t.content ++ startTag trName :: inside)),
            TokErr.EOF⟩ =
        Except.ok (ts.map (fun t' => t'.rows.map (fun r => Join (rowEntries r.inside) delimiter))
          ++ [t.rows.map (fun r => Join (rowEntries r.inside) delimiter) ++
            [Join (rowEntries inside) delimiter]]) := by
  have hstart : (startTag tableName).type = TokenType.StartTagToken ∧
      (startTag tableName).data = tableName := ⟨rfl, rfl⟩
  refine ⟨extractTablesLoop_EOF delimiter toks [], ?_, ?_⟩
  · unfold extractTables
    simp only
    rw [extractTablesLoop_elems delimiter _ ts _ [] hts,
      extractTablesLoop_skip delimiter _ _ _ _ ht.1, extractTablesLoop_cons, if_pos hstart,
      extractTableLoop_open delimiter t ht.2]
    simp only [List.nil_append]
    rw [extractTablesLoop_nil]
  · unfold extractTables
    simp only
    rw [extractTablesLoop_elems delimiter _ ts _ [] hts,
      extractTablesLoop_skip delimiter _ _ _ _ ht.1, extractTablesLoop_cons, if_pos hstart,
      extractTableLoop_open_row delimiter t inside ht.2 hin]
    simp only [List.nil_append]
    rw [extractTablesLoop_nil]
    simp [List.map_map, Function.comp_def]

/-- Witness of C12: a completed table of one row, then a table without end
tag that holds one completed row and an open row. -/
theorem extractTables_EOF_witness :
    (∀ t' ∈ [(⟨[], [⟨[], [⟨TokenType.TextToken, ['a']⟩]⟩], []⟩ : TableElem)],
        (∀ x ∈ t'.before, isStartTag tableName x = false) ∧ t'.Scannable) ∧
      extractTables ['\t']
          ⟨[(⟨[], [⟨[], [⟨TokenType.TextToken, ['a']⟩]⟩], []⟩ : TableElem)].flatMap
              TableElem.tokens ++
            ((⟨[⟨TokenType.TextToken, ['x']⟩], [⟨[], [⟨TokenType.TextToken, ['b']⟩]⟩],
                []⟩ : TableElem).before ++ startTag tableName ::
              ((⟨[⟨TokenType.TextToken, ['x']⟩], [⟨[], [⟨TokenType.TextToken, ['b']⟩]⟩],
                  []⟩ : TableElem).content ++ startTag trName ::
                [⟨TokenType.TextToken, ['c']⟩, ⟨TokenType.TextToken, ['d']⟩])),
            TokErr.EOF⟩ =
        Except.ok [[['a']], [['b'], ['c', '\t', 'd']]] :=
  ⟨by decide,
    (extractTables_EOF ['\t'] [] [⟨[], [⟨[], [⟨TokenType.TextToken, ['a']⟩]⟩], []⟩]
      ⟨[⟨TokenType.TextToken, ['x']⟩], [⟨[], [⟨TokenType.TextToken, ['b']⟩]⟩], []⟩
      [⟨TokenType.TextToken, ['c']⟩, ⟨TokenType.TextToken, ['d']⟩]
      (by decide) (by decide) (by decide)).2.2⟩

/-! ## Cell Normalizer: the double-space pass -/

/-- The replacement scan passes over a piece without the first character of
`old`. -/
theorem replaceScan_free (a : Char) (old' new : Str) (x rest : Str) (h : a ∉ x) :
    replaceScan (a :: old') new 0 (x ++ rest) = x ++ replaceScan (a :: old') new 0 rest := by
  induction x with
  | nil => rfl
  | cons c cs ih =>
    have hc : c ≠ a := fun h0 => h (h0 ▸ List.mem_cons_self _ _)
    have hp : ¬ (a :: old').isPrefixOf (c :: (cs ++ rest)) = true := by
      simp [List.isPrefixOf, Ne.symm hc]
    rw [List.cons_append, replaceScan_noMatch _ _ _ _ hp,
      ih (fun h0 => h (List.mem_cons_of_mem _ h0))]
    rfl

/-- The double-space pass turns a run of `2 * k` spaces into `k` spaces. -/
theorem replaceScan_pairs (k : Nat) (rest : Str) :
    replaceScan [' ', ' '] [' '] 0 (List.replicate (2 * k) ' ' ++ rest) =
      List.replicate k ' ' ++ replaceScan [' ', ' '] [' '] 0 rest := by
  induction k with
  | zero => rfl
  | succ k ih =>
    have h2 : 2 * (k + 1) = (2 * k + 1) + 1 := by omega
    rw [h2, List.replicate_succ, List.replicate_succ, List.cons_append, List.cons_append,
      replaceScan_match _ _ _ _ (by simp [List.isPrefixOf])]
    simp only [List.length_cons, List.length_nil, Nat.zero_add, Nat.add_one_sub_one,
      List.drop_succ_cons, List.drop_zero]
    rw [ih, List.replicate_succ]
    rfl

/-- Replacing a space by a space changes nothing. -/
theorem replaceScan_space (s : Str) : replaceScan [' '] [' '] 0 s = s := by
  induction s with
  | nil => rfl
  | cons c cs ih =>
    by_cases hp : List.isPrefixOf [' '] (c :: cs) = true
    · rw [replaceScan_match _ _ _ _ hp]
      simp only [List.length_singleton, Nat.sub_self, List.drop_zero]
      rw [ih]
      have : ' ' = c := by simpa [List.isPrefixOf] using hp
      rw [← this]; rfl
    · rw [replaceScan_noMatch _ _ _ _ hp, ih]

/-- A space-free string that starts a string with a space in it starts the
part before the space. -/
theorem prefix_of_prefix_append_space (q l₁ l₂ : Str) (hq : ' ' ∉ q)
    (h : q <+: l₁ ++ ' ' :: l₂) : q <+: l₁ := by
  induction l₁ generalizing q with
  | nil =>
    cases q with
    | nil => exact List.nil_prefix
    | cons b q' =>
      rw [List.nil_append, List.cons_prefix_cons] at h
      exact absurd h.1.symm (fun h0 => hq (h0 ▸ List.mem_cons_self _ _))
  | cons a l₁ ih =>
    cases q with
    | nil => exact List.nil_prefix
    | cons b q' =>
      rw [List.cons_append, List.cons_prefix_cons] at h
      rw [List.cons_prefix_cons]
      exact ⟨h.1, ih q' (fun h0 => hq (List.mem_cons_of_mem _ h0)) h.2⟩

/-- A non-empty space-free string that occurs in a string with a space in it
occurs before the space or after it. -/
theorem infix_of_infix_append_space (q l₁ l₂ : Str) (hne : q ≠ []) (hq : ' ' ∉ q)
    (h : q <:+: l₁ ++ ' ' :: l₂) : q <:+: l₁ ∨ q <:+: l₂ := by
  induction l₁ with
  | nil =>
    rw [List.nil_append, List.infix_cons_iff] at h
    rcases h with h | h
    · have := prefix_of_prefix_append_space q [] l₂ hq (by simpa using h)
      exact absurd (List.prefix_nil.mp this) hne
    · exact Or.inr h
  | cons a l₁ ih =>
    rw [List.cons_append, List.infix_cons_iff] at h
    rcases h with h | h
    · have := prefix_of_prefix_append_space q (a :: l₁) l₂ hq (by simpa using h)
      exact Or.inl this.isInfix
    · rcases ih h with h' | h'
      · exact Or.inl (List.infix_cons h')
      · exact Or.inr h'

/-- A non-empty space-free string that occurs after a run of spaces occurs
after the run. -/
theorem infix_of_infix_spaces (q y : Str) (n : Nat) (hne : q ≠ []) (hq : ' ' ∉ q)
    (h : q <:+: List.replicate n ' ' ++ y) : q <:+: y := by
  induction n with
  | zero => simpa using h
  | succ n ih =>
    rw [List.replicate_succ] at h
    have h' : q <:+: [] ++ ' ' :: (List.replicate n ' ' ++ y) := by simpa using h
    rcases infix_of_infix_append_space q [] _ hne hq h' with h0 | h0
    · exact absurd (List.infix_nil.mp h0) hne
    · exact ih h0

/-- Cleaning a cell made of two words around a run of `2 * k` spaces, for a
delimiter that leaves the cell alone: the run is halved. -/
theorem cleanCell_spaces (delimiter x y : Str) (k : Nat) (hk : 1 ≤ k)
    (hd : delimiter = [' '] ∨ (delimiter ≠ [] ∧ ' ' ∉ delimiter))
    (hx : x ≠ []) (hy : y ≠ []) (hxs : ∀ c ∈ x, isSpace c = false)
    (hys : ∀ c ∈ y, isSpace c = false)
    (hxd : ¬ delimiter <:+: x) (hyd : ¬ delimiter <:+: y) :
    cleanCell delimiter (x ++ List.replicate (2 * k) ' ' ++ y) =
      x ++ List.replicate k ' ' ++ y := by
  have hsx : ' ' ∉ x := fun h => by have := hxs _ h; revert this; decide
  have hsy : ' ' ∉ y := fun h => by have := hys _ h; revert this; decide
  have hnx : nbsp ∉ x := fun h => by have := hxs _ h; revert this; decide
  have hny : nbsp ∉ y := fun h => by have := hys _ h; revert this; decide
  have hne : delimiter ≠ [] := by
    rcases hd with h | h
    · rw [h]; simp
    · exact h.1
  have hrep : List.replicate (2 * k) ' ' = ' ' :: List.replicate (2 * k - 1) ' ' := by
    have : 2 * k = (2 * k - 1) + 1 := by omega
    conv => lhs; rw [this, List.replicate_succ]
  have h1 : replaceScan delimiter [' '] 0 (x ++ List.replicate (2 * k) ' ' ++ y) =
      x ++ List.replicate (2 * k) ' ' ++ y := by
    rcases hd with h | h
    · rw [h]; exact replaceScan_space _
    · apply replaceScan_of_absent
      intro hin
      rw [List.append_assoc, hrep, List.cons_append] at hin
      rcases infix_of_infix_append_space delimiter x _ h.1 h.2 hin with h0 | h0
      · exact hxd h0
      · exact hyd (infix_of_infix_spaces delimiter y _ h.1 h.2 h0)
  have h2 : replaceScan [nbsp] [' '] 0 (x ++ List.replicate (2 * k) ' ' ++ y) =
      x ++ List.replicate (2 * k) ' ' ++ y := by
    apply replaceScan_of_absent
    rw [singleton_infix_iff_mem]
    intro hin
    simp only [List.mem_append, List.mem_replicate] at hin
    rcases hin with (h0 | h0) | h0
    · exact hnx h0
    · exact absurd h0.2 (by decide)
    · exact hny h0
  have h3 : replaceScan [' ', ' '] [' '] 0 (x ++ List.replicate (2 * k) ' ' ++ y) =
      x ++ List.replicate k ' ' ++ y := by
    rw [List.append_assoc, replaceScan_free ' ' [' '] [' '] x _ hsx, replaceScan_pairs,
      replaceScan_of_absent [' ', ' '] [' '] y, List.append_assoc]
    intro hin
    exact hsy (hin.subset (List.mem_cons_self _ _))
  rw [cleanCell_eq_scan delimiter _ hne, h1, h2, h3]
  apply TrimSpace_of_trimmed
  · intro a ha
    cases x with
    | nil => exact absurd rfl hx
    | cons b bs =>
      simp only [List.cons_append, List.head?_cons, Option.some.injEq] at ha
      exact hxs a (ha ▸ List.mem_cons_self _ _)
  · intro a ha
    rw [List.getLast?_append_of_ne_nil _ hy] at ha
    exact hys a (List.mem_of_getLast?_eq_some ha)

/-- Counterexample to C13 as stated: with the delimiter `, ` the words `a,`
and `b` hold no white space, no non-breaking space and no delimiter, but the
cell `a,`, two spaces, `b` is cleaned to `a b`, not to `a,`, one space, `b`:
the delimiter occurs across the end of the first word and is replaced. -/
theorem cleanCell_delimiter_with_space :
    ((1 ≤ 1 ∧ (['a', ','] : Str) ≠ [] ∧ (['b'] : Str) ≠ [] ∧
        (∀ c ∈ (['a', ','] : Str), isSpace c = false ∧ c ≠ nbsp) ∧
        (∀ c ∈ (['b'] : Str), isSpace c = false ∧ c ≠ nbsp) ∧
        ¬ ([',', ' '] : Str) <:+: ['a', ','] ∧ ¬ ([',', ' '] : Str) <:+: ['b']) ∧
      cleanCell [',', ' '] (['a', ','] ++ List.replicate (2 * 1) ' ' ++ ['b']) =
        ['a', ' ', 'b']) ∧
      cleanCell [',', ' '] (['a', ','] ++ List.replicate (2 * 1) ' ' ++ ['b']) ≠
        ['a', ','] ++ List.replicate 1 ' ' ++ ['b'] := by
  decide

/-- C13, amended: double spaces are collapsed by one non-overlapping
left-to-right replacement pass, not to a fixpoint.  For every `k ≥ 1`, every
delimiter that is one space or is non-empty and holds no space, and all
non-empty words `x`, `y` that hold no white space (so no non-breaking space)
and no delimiter, cleaning the single cell `x`, `2 * k` spaces, `y` gives `x`,
`k` spaces, `y`.  So a cleaned cell can hold two consecutive spaces, four
spaces become two, and cleaning is not idempotent. -/
theorem cleanCell_double_space_once (delimiter x y : Str) (k : Nat) (hk : 1 ≤ k)
    (hd : delimiter = [' '] ∨ (delimiter ≠ [] ∧ ' ' ∉ delimiter))
    (hx : x ≠ []) (hy : y ≠ []) (hxs : ∀ c ∈ x, isSpace c = false)
    (hys : ∀ c ∈ y, isSpace c = false)
    (hxd : ¬ delimiter <:+: x) (hyd : ¬ delimiter <:+: y) :
    cleanCell delimiter (x ++ List.replicate (2 * k) ' ' ++ y) =
        x ++ List.replicate k ' ' ++ y ∧
      cleanCells [x ++ List.replicate (2 * k) ' ' ++ y] delimiter =
        some [x ++ List.replicate k ' ' ++ y] ∧
      cleanCell ['\t'] ['a', ' ', ' ', ' ', ' ', 'b'] = ['a', ' ', ' ', 'b'] ∧
      [' ', ' '] <:+: cleanCell ['\t'] ['a', ' ', ' ', ' ', ' ', 'b'] ∧
      cleanCell ['\t'] (cleanCell ['\t'] ['a', ' ', ' ', ' ', ' ', 'b']) ≠
        cleanCell ['\t'] ['a', ' ', ' ', ' ', ' ', 'b'] := by
  have hcell := cleanCell_spaces delimiter x y k hk hd hx hy hxs hys hxd hyd
  refine ⟨hcell, ?_, by decide, by decide, by decide⟩
  rw [cleanCells_eq, if_pos (by simp)]
  simp only [List.map_cons, List.map_nil, hcell]
  rw [List.filter_eq_self.mpr]
  intro c hc
  simp only [List.mem_singleton] at hc
  subst hc
  cases x with
  | nil => exact absurd rfl hx
  | cons b bs => simp

/-- Witness of C13, amended: the words `New` and `York` around six spaces,
with the tab delimiter. -/
theorem cleanCell_double_space_once_witness :
    (1 ≤ 3 ∧ (['\t'] = [' '] ∨ ((['\t'] : Str) ≠ [] ∧ ' ' ∉ (['\t'] : Str))) ∧
        (∀ c ∈ (['N', 'e', 'w'] : Str), isSpace c = false) ∧
        (∀ c ∈ (['Y', 'o', 'r', 'k'] : Str), isSpace c = false) ∧
        ¬ (['\t'] : Str) <:+: ['N', 'e', 'w'] ∧ ¬ (['\t'] : Str) <:+: ['Y', 'o', 'r', 'k']) ∧
      cleanCell ['\t'] (['N', 'e', 'w'] ++ List.replicate (2 * 3) ' ' ++ ['Y', 'o', 'r', 'k']) =
        ['N', 'e', 'w'] ++ List.replicate 3 ' ' ++ ['Y', 'o', 'r', 'k'] :=
  ⟨by decide,
    (cleanCell_double_space_once ['\t'] ['N', 'e', 'w'] ['Y', 'o', 'r', 'k'] 3 (by decide)
      (Or.inr (by decide)) (by decide) (by decide) (by decide) (by decide) (by decide)
      (by decide)).1⟩

/-! ## Cell Normalizer: text tokens that merge into one cell -/

/-- A string without white space is left as it is by trimming. -/
theorem TrimSpace_word (a : Str) (has : ∀ c ∈ a, isSpace c = false) : TrimSpace a = a :=
  TrimSpace_of_trimmed a (fun c hc => has c (List.mem_of_mem_head? hc))
    (fun c hc => has c (List.mem_of_getLast?_eq_some hc))

/-- A string without white space and without the delimiter is left as it is
by cleaning. -/
theorem cleanCell_word (d : Char) (a : Str) (has : ∀ c ∈ a, isSpace c = false)
    (had : d ∉ a) : cleanCell [d] a = a := by
  have hsa : ' ' ∉ a := fun h => by have := has _ h; revert this; decide
  have hna : nbsp ∉ a := fun h => by have := has _ h; revert this; decide
  exact cleanCell_of_clean [d] a (by simp)
    (fun hin => had ((singleton_infix_iff_mem _ _).mp hin)) hna
    (fun hin => hsa (hin.subset (List.mem_cons_self _ _)))
    (fun c hc => has c (List.mem_of_mem_head? hc))
    (fun c hc => has c (List.mem_of_getLast?_eq_some hc))

/-- Two words joined by one delimiter are one piece for `splitRow`, and
cleaning puts a space in place of the delimiter. -/
theorem cleanCells_splitRow_single (d : Char) (a b : Str) (ha : a ≠ []) (hb : b ≠ [])
    (has : ∀ c ∈ a, isSpace c = false) (hbs : ∀ c ∈ b, isSpace c = false)
    (had : d ∉ a) (hbd : d ∉ b) :
    cleanCells (splitRow (a ++ d :: b) [d]) [d] = some [a ++ ' ' :: b] := by
  have hsa : ' ' ∉ a := fun h => by have := has _ h; revert this; decide
  have hsb : ' ' ∉ b := fun h => by have := hbs _ h; revert this; decide
  have hna : nbsp ∉ a := fun h => by have := has _ h; revert this; decide
  have hnb : nbsp ∉ b := fun h => by have := hbs _ h; revert this; decide
  obtain ⟨b0, bs, rfl⟩ := List.exists_cons_of_ne_nil hb
  have hb0d : b0 ≠ d := fun h0 => hbd (h0 ▸ List.mem_cons_self _ _)
  have hb0s : b0 ≠ ' ' := fun h0 => hsb (h0 ▸ List.mem_cons_self _ _)
  have hsplit : Split (a ++ d :: b0 :: bs) ([d] ++ [d]) = [a ++ d :: b0 :: bs] := by
    have h1 := splitScan_free d [d] a (d :: b0 :: bs) [] had
    have h2 := splitScan_free d [d] (b0 :: bs) [] (a ++ [d]) hbd
    have hp : ¬ List.isPrefixOf [d, d] (d :: b0 :: bs) = true := by
      simp [List.isPrefixOf, Ne.symm hb0d]
    simp only [Split, List.singleton_append, List.isEmpty_cons, Bool.false_eq_true, if_false]
    rw [h1, List.nil_append, splitScan, if_neg hp]
    rw [List.append_nil] at h2
    rw [h2]
    simp [splitScan]
  have htrim : TrimSpace (a ++ d :: b0 :: bs) = a ++ d :: b0 :: bs := by
    apply TrimSpace_of_trimmed
    · intro c hc
      cases a with
      | nil => exact absurd rfl ha
      | cons a0 as =>
        simp only [List.cons_append, List.head?_cons, Option.some.injEq] at hc
        exact has c (hc ▸ List.mem_cons_self _ _)
    · intro c hc
      rw [List.getLast?_append_of_ne_nil _ (by simp), List.getLast?_cons_cons] at hc
      exact hbs c (List.mem_of_getLast?_eq_some hc)
  have hclean : cleanCell [d] (a ++ d :: b0 :: bs) = a ++ ' ' :: b0 :: bs := by
    have h1 : replaceScan [d] [' '] 0 (a ++ d :: b0 :: bs) = a ++ ' ' :: b0 :: bs := by
      rw [replaceScan_free d [] [' '] a _ had,
        replaceScan_match _ _ _ _ (by simp [List.isPrefixOf])]
      simp only [List.length_singleton, Nat.sub_self, List.drop_zero, List.singleton_append]
      rw [replaceScan_of_absent [d] [' '] (b0 :: bs)
        (fun hin => hbd ((singleton_infix_iff_mem _ _).mp hin))]
    have h2 : replaceScan [nbsp] [' '] 0 (a ++ ' ' :: b0 :: bs) = a ++ ' ' :: b0 :: bs := by
      apply replaceScan_of_absent
      rw [singleton_infix_iff_mem]
      intro hin
      rcases List.mem_append.mp hin with h0 | h0
      · exact hna h0
      · rcases List.mem_cons.mp h0 with h0 | h0
        · revert h0; decide
        · exact hnb h0
    have h3 : replaceScan [' ', ' '] [' '] 0 (a ++ ' ' :: b0 :: bs) = a ++ ' ' :: b0 :: bs := by
      have hp : ¬ List.isPrefixOf [' ', ' '] (' ' :: b0 :: bs) = true := by
        simp [List.isPrefixOf, Ne.symm hb0s]
      rw [replaceScan_free ' ' [' '] [' '] a _ hsa, replaceScan_noMatch _ _ _ _ hp,
        replaceScan_of_absent [' ', ' '] [' '] (b0 :: bs)
          (fun hin => hsb (hin.subset (List.mem_cons_self _ _)))]
    rw [cleanCell_eq_scan [d] _ (by simp), h1, h2, h3]
    apply TrimSpace_of_trimmed
    · intro c hc
      cases a with
      | nil => exact absurd rfl ha
      | cons a0 as =>
        simp only [List.cons_append, List.head?_cons, Option.some.injEq] at hc
        exact has c (hc ▸ List.mem_cons_self _ _)
    · intro c hc
      rw [List.getLast?_append_of_ne_nil _ (by simp), List.getLast?_cons_cons] at hc
      exact hbs c (List.mem_of_getLast?_eq_some hc)
  simp only [splitRow]
  rw [hsplit, List.map_singleton, htrim, cleanCells_eq, if_pos (by simp)]
  simp only [List.map_singleton, hclean]
  rw [List.filter_eq_self.mpr]
  intro c hc
  simp only [List.mem_singleton] at hc
  subst hc
  cases a with
  | nil => exact absurd rfl ha
  | cons a0 as => simp

/-- Two words joined by the doubled delimiter are two cells. -/
theorem cleanCells_splitRow_double (d : Char) (a b : Str) (ha : a ≠ []) (hb : b ≠ [])
    (has : ∀ c ∈ a, isSpace c = false) (hbs : ∀ c ∈ b, isSpace c = false)
    (had : d ∉ a) (hbd : d ∉ b) :
    cleanCells (splitRow (a ++ d :: d :: b) [d]) [d] = some [a, b] := by
  have hsplit : Split (a ++ d :: d :: b) ([d] ++ [d]) = [a, b] := by
    have := splitScan_Join d a [b] [] (by
      intro x hx
      rcases List.mem_cons.mp hx with h0 | h0
      · rw [h0]; exact had
      · rw [List.mem_singleton.mp h0]; exact hbd)
    simpa [Split, Join] using this
  simp only [splitRow]
  rw [hsplit, cleanCells_eq]
  simp only [List.map_cons, List.map_nil, TrimSpace_word a has, TrimSpace_word b hbs,
    cleanCell_word d a has had, cleanCell_word d b hbs hbd]
  rw [if_pos (by simpa [cleanCell_word d a has had] using ha), List.filter_eq_self.mpr]
  intro c hc
  rcases List.mem_cons.mp hc with h0 | h0
  · rw [h0]; simpa using ha
  · rw [List.mem_singleton.mp h0]; simpa using hb

/-- The entries of a row are the trimmed data of its text tokens. -/
theorem rowEntries_eq_map (inside : List Token) :
    rowEntries inside =
      ((inside.filter (fun t => t.type = TokenType.TextToken)).map (fun t => t.data)).map
        TrimSpace := by
  simp [rowEntries, List.map_map, Function.comp_def]

/-- The table of one row, closed by its end tags, is the one flattened row. -/
theorem extractTable_one_row (delimiter : Str) (err : TokErr) (inside rest : List Token)
    (h : ∀ x ∈ inside, isEndTag trName x = false) :
    extractTable delimiter
        ⟨startTag trName :: (inside ++ endTag trName :: endTag tableName :: rest), err⟩ =
      Except.ok ([Join (rowEntries inside) delimiter], ⟨rest, err⟩) := by
  have := extractTableLoop_content delimiter err ⟨[], [⟨[], inside⟩], []⟩ rest
    ⟨by simpa using h, by simp⟩
  simp only [TableElem.content, RowElem.tokens, List.flatMap_cons, List.flatMap_nil,
    List.nil_append, List.append_nil, List.cons_append, List.append_assoc,
    List.singleton_append, List.map_cons, List.map_nil] at this
  simp only [extractTable]
  rw [this]

/-- C16: text tokens of a row that are not separated by a white-space-only
text token merge into one cell.  For a one-character delimiter `d` and
non-empty strings `a`, `b` without white space (so without non-breaking space)
and without `d`, a row whose text tokens are `a`, `b` is flattened to
`a d b` and normalized to the one-cell record `a b`, with one space; a row
whose text tokens are `a`, white space only, `b` is flattened to `a d d b` and
normalized to the two-cell record `a`, `b`. -/
theorem text_tokens_merge (d : Char) (a b w : Str) (inside₁ inside₂ rest : List Token)
    (err : TokErr) (ha : a ≠ []) (hb : b ≠ [])
    (has : ∀ c ∈ a, isSpace c = false) (hbs : ∀ c ∈ b, isSpace c = false)
    (had : d ∉ a) (hbd : d ∉ b) (hw : ∀ c ∈ w, isSpace c = true)
    (hin₁ : ∀ x ∈ inside₁, isEndTag trName x = false)
    (hin₂ : ∀ x ∈ inside₂, isEndTag trName x = false)
    (h₁ : (inside₁.filter (fun t => t.type = TokenType.TextToken)).map (fun t => t.data) =
      [a, b])
    (h₂ : (inside₂.filter (fun t => t.type = TokenType.TextToken)).map (fun t => t.data) =
      [a, w, b]) :
    (extractTable [d]
          ⟨startTag trName :: (inside₁ ++ endTag trName :: endTag tableName :: rest), err⟩ =
        Except.ok ([a ++ d :: b], ⟨rest, err⟩) ∧
      cleanCells (splitRow (a ++ d :: b) [d]) [d] = some [a ++ ' ' :: b]) ∧
      (extractTable [d]
          ⟨startTag trName :: (inside₂ ++ endTag trName :: endTag tableName :: rest), err⟩ =
        Except.ok ([a ++ d :: d :: b], ⟨rest, err⟩) ∧
      cleanCells (splitRow (a ++ d :: d :: b) [d]) [d] = some [a, b]) := by
  have e₁ : Join (rowEntries inside₁) [d] = a ++ d :: b := by
    rw [rowEntries_eq_map, h₁]
    simp [Join, TrimSpace_word a has, TrimSpace_word b hbs]
  have e₂ : Join (rowEntries inside₂) [d] = a ++ d :: d :: b := by
    rw [rowEntries_eq_map, h₂]
    simp [Join, TrimSpace_word a has, TrimSpace_word b hbs,
      TrimSpace_eq_nil_of_all_space w hw]
  refine ⟨⟨?_, cleanCells_splitRow_single d a b ha hb has hbs had hbd⟩,
    ?_, cleanCells_splitRow_double d a b ha hb has hbs had hbd⟩
  · rw [extractTable_one_row [d] err inside₁ rest hin₁, e₁]
  · rw [extractTable_one_row [d] err inside₂ rest hin₂, e₂]

/-- Witness of C16: the words `New` and `York` with the tab delimiter, in a
row `<td>New<br>York</td>` and in a row `<td>New</td> <td>York</td>`. -/
theorem text_tokens_merge_witness :
    ((['N', 'e', 'w'] : Str) ≠ [] ∧ (['Y', 'o', 'r', 'k'] : Str) ≠ [] ∧
        (∀ c ∈ (['N', 'e', 'w'] : Str), isSpace c = false) ∧
        (∀ c ∈ (['Y', 'o', 'r', 'k'] : Str), isSpace c = false) ∧
        '\t' ∉ (['N', 'e', 'w'] : Str) ∧ '\t' ∉ (['Y', 'o', 'r', 'k'] : Str) ∧
        (∀ c ∈ ([' '] : Str), isSpace c = true)) ∧
      cleanCells (splitRow (['N', 'e', 'w'] ++ '\t' :: ['Y', 'o', 'r', 'k']) ['\t']) ['\t'] =
        some [['N', 'e', 'w'] ++ ' ' :: ['Y', 'o', 'r', 'k']] ∧
      cleanCells (splitRow (['N', 'e', 'w'] ++ '\t' :: '\t' :: ['Y', 'o', 'r', 'k']) ['\t'])
        ['\t'] = some [['N', 'e', 'w'], ['Y', 'o', 'r', 'k']] :=
  ⟨by decide,
    (text_tokens_merge '\t' ['N', 'e', 'w'] ['Y', 'o', 'r', 'k'] [' ']
      [⟨TokenType.StartTagToken, ['t', 'd']⟩, ⟨TokenType.TextToken, ['N', 'e', 'w']⟩,
        ⟨TokenType.SelfClosingTagToken, ['b', 'r']⟩, ⟨TokenType.TextToken, ['Y', 'o', 'r', 'k']⟩,
        ⟨TokenType.EndTagToken, ['t', 'd']⟩]
      [⟨TokenType.StartTagToken, ['t', 'd']⟩, ⟨TokenType.TextToken, ['N', 'e', 'w']⟩,
        ⟨TokenType.EndTagToken, ['t', 'd']⟩, ⟨TokenType.TextToken, [' ']⟩,
        ⟨TokenType.StartTagToken, ['t', 'd']⟩, ⟨TokenType.TextToken, ['Y', 'o', 'r', 'k']⟩,
        ⟨TokenType.EndTagToken, ['t', 'd']⟩]
      [] TokErr.EOF (by decide) (by decide) (by decide) (by decide) (by decide) (by decide)
      (by decide) (by decide) (by decide) (by decide) (by decide)).1.2,
    (text_tokens_merge '\t' ['N', 'e', 'w'] ['Y', 'o', 'r', 'k'] [' ']
      [⟨TokenType.StartTagToken, ['t', 'd']⟩, ⟨TokenType.TextToken, ['N', 'e', 'w']⟩,
        ⟨TokenType.SelfClosingTagToken, ['b', 'r']⟩, ⟨TokenType.TextToken, ['Y', 'o', 'r', 'k']⟩,
        ⟨TokenType.EndTagToken, ['t', 'd']⟩]
      [⟨TokenType.StartTagToken, ['t', 'd']⟩, ⟨TokenType.TextToken, ['N', 'e', 'w']⟩,
        ⟨TokenType.EndTagToken, ['t', 'd']⟩, ⟨TokenType.TextToken, [' ']⟩,
        ⟨TokenType.StartTagToken, ['t', 'd']⟩, ⟨TokenType.TextToken, ['Y', 'o', 'r', 'k']⟩,
        ⟨TokenType.EndTagToken, ['t', 'd']⟩]
      [] TokErr.EOF (by decide) (by decide) (by decide) (by decide) (by decide) (by decide)
      (by decide) (by decide) (by decide) (by decide) (by decide)).2.2⟩

end Generate
